import Mathlib

/-!
Shallow embedding of the `topological-sort` Rust crate (`src/lib.rs`).

The Rust type `TopologicalSort<T>` holds `top : HashMap<T, Dependency<T>>`
where `Dependency<T>` has `num_prec : usize` and `succ : HashSet<T>`.
We model the hash map as an association list with (invariantly) unique keys
and the hash set as a duplicate-free list; new entries are appended at the
end, which fixes one concrete iteration order among those a hash map may
exhibit.
-/

namespace TopoSort

/-- `Dependency<T>` from the source: the per-element record holding the
number of not-yet-removed predecessors and the set of successors. -/
structure Dependency (T : Type) where
  num_prec : Nat
  succ : List T
deriving DecidableEq, Repr

/-- `Dependency::new()` from the source. -/
def Dependency.new {T : Type} : Dependency T :=
  { num_prec := 0, succ := [] }

/-- `TopologicalSort<T>` from the source: the map from element to record. -/
structure TopologicalSort (T : Type) where
  top : List (T × Dependency T)
deriving DecidableEq, Repr

variable {T : Type} [DecidableEq T]

/-- Association-list lookup, modelling `HashMap::get` / `entry` inspection. -/
def mapLookup (k : T) : List (T × Dependency T) → Option (Dependency T)
  | [] => none
  | p :: rest => if p.1 = k then some p.2 else mapLookup k rest

/-- Replace the value stored at key `k` (used only when `k` is present),
modelling in-place mutation through an occupied `Entry`. -/
def mapSet (k : T) (v : Dependency T) : List (T × Dependency T) → List (T × Dependency T)
  | [] => []
  | p :: rest => if p.1 = k then (k, v) :: rest else p :: mapSet k v rest

/-- Remove the entry with key `k`, modelling `HashMap::remove`. -/
def mapErase (k : T) : List (T × Dependency T) → List (T × Dependency T)
  | [] => []
  | p :: rest => if p.1 = k then rest else p :: mapErase k rest

/-- The list of tracked keys of a map. -/
def keysOf (m : List (T × Dependency T)) : List T :=
  m.map Prod.fst

/-- `TopologicalSort::new()` from the source. -/
def TopologicalSort.new : TopologicalSort T :=
  { top := [] }

/-- `TopologicalSort::len()` from the source. -/
def TopologicalSort.len (ts : TopologicalSort T) : Nat :=
  ts.top.length

/-- `TopologicalSort::is_empty()` from the source. -/
def TopologicalSort.is_empty (ts : TopologicalSort T) : Bool :=
  ts.top.isEmpty

/-- Second half of `add_dependency`: the `self.top.entry(succ)` match that
creates `succ` with `num_prec = 1` or increments its `num_prec`. -/
def addDepStep2 (succ : T) (m : List (T × Dependency T)) : List (T × Dependency T) :=
  match mapLookup succ m with
  | none => m ++ [(succ, { num_prec := 1, succ := [] })]
  | some e => mapSet succ { num_prec := e.num_prec + 1, succ := e.succ } m

/-- `TopologicalSort::add_dependency(prec, succ)` from the source.  The first
`entry(prec)` match inserts a fresh record with successor set `{succ}` when
vacant; when occupied it inserts `succ` into the successor set and, if the
edge already existed (`HashSet::insert` returned `false`), returns early. -/
def TopologicalSort.add_dependency (ts : TopologicalSort T) (prec succ : T) :
    TopologicalSort T :=
  match mapLookup prec ts.top with
  | none => ⟨addDepStep2 succ (ts.top ++ [(prec, { num_prec := 0, succ := [succ] })])⟩
  | some d =>
    if succ ∈ d.succ then ts
    else ⟨addDepStep2 succ (mapSet prec { num_prec := d.num_prec, succ := d.succ ++ [succ] } ts.top)⟩

/-- `TopologicalSort::insert(elt)` from the source: adds `elt` with a fresh
record when absent and reports whether it was newly added. -/
def TopologicalSort.insert (ts : TopologicalSort T) (elt : T) :
    TopologicalSort T × Bool :=
  match mapLookup elt ts.top with
  | none => (⟨ts.top ++ [(elt, Dependency.new)]⟩, true)
  | some _ => (ts, false)

/-- One step of the successor loop in `remove`: decrement `num_prec` of `s`
when `s` is still tracked (`self.top.get_mut(s)`), else skip silently. -/
def decSucc (m : List (T × Dependency T)) (s : T) : List (T × Dependency T) :=
  match mapLookup s m with
  | none => m
  | some e => mapSet s { num_prec := e.num_prec - 1, succ := e.succ } m

/-- `TopologicalSort::remove(prec)` from the source: remove the entry and
decrement `num_prec` of every still-tracked recorded successor. -/
def TopologicalSort.remove (ts : TopologicalSort T) (prec : T) :
    TopologicalSort T × Option (Dependency T) :=
  match mapLookup prec ts.top with
  | none => (ts, none)
  | some p => (⟨p.succ.foldl decSucc (mapErase prec ts.top)⟩, some p)

/-- The `iter().filter(num_prec == 0).next()` scan in `pop`: the first
tracked key whose record has `num_prec = 0`. -/
def findReady : List (T × Dependency T) → Option T
  | [] => none
  | p :: rest => if p.2.num_prec = 0 then some p.1 else findReady rest

/-- `TopologicalSort::pop()` from the source: remove and return one element
with no pending predecessors, or `none`. -/
def TopologicalSort.pop (ts : TopologicalSort T) : TopologicalSort T × Option T :=
  match findReady ts.top with
  | none => (ts, none)
  | some k => ((ts.remove k).1, some k)

/-- The key snapshot taken at the start of `pop_all`: all keys whose record
has `num_prec = 0`, in map iteration order. -/
def readyKeys (m : List (T × Dependency T)) : List T :=
  (m.filter (fun p => p.2.num_prec = 0)).map Prod.fst

/-- The removal loop of `pop_all`: `for k in keys.iter() { remove(k) }`. -/
def removeKeys (ts : TopologicalSort T) (l : List T) : TopologicalSort T :=
  l.foldl (fun t k => (t.remove k).1) ts

/-- `TopologicalSort::pop_all()` from the source: snapshot every ready key,
then remove each, returning the snapshot. -/
def TopologicalSort.pop_all (ts : TopologicalSort T) :
    TopologicalSort T × List T :=
  (removeKeys ts (readyKeys ts.top), readyKeys ts.top)

/-- The body of `FromIterator::from_iter`'s inner loop: compare the new
`item` against one previously seen element and add the induced edge. -/
def fromIterCmp (pcmp : T → T → Option Ordering) (item : T)
    (t : TopologicalSort T) (seen_item : T) : TopologicalSort T :=
  match pcmp seen_item item with
  | some Ordering.lt => t.add_dependency seen_item item
  | some Ordering.gt => t.add_dependency item seen_item
  | _ => t

/-- One iteration of `from_iter`'s outer loop: insert `item`, compare it
against every previously seen element, and append it to `seen`. -/
def fromIterStep (pcmp : T → T → Option Ordering)
    (acc : TopologicalSort T × List T) (item : T) : TopologicalSort T × List T :=
  (acc.2.foldl (fromIterCmp pcmp item) (acc.1.insert item).1, acc.2 ++ [item])

/-- `FromIterator::from_iter` from the source, parameterised by the
element type's `partial_cmp`. -/
def fromIter (pcmp : T → T → Option Ordering) (l : List T) : TopologicalSort T :=
  (l.foldl (fromIterStep pcmp) (TopologicalSort.new, [])).1

/-- `partial_cmp` of the totally ordered integer element type used in the
crate's `from_iter` test (`i32`). -/
def intPcmp (a b : Int) : Option Ordering :=
  some (compare a b)

/-- The sequence of results of `n` successive `Iterator::next()` (= `pop`)
calls, threading the mutated state. -/
def popSeq (ts : TopologicalSort T) : Nat → List (Option T)
  | 0 => []
  | n + 1 => (ts.pop).2 :: popSeq (ts.pop).1 n

/-- The public mutating operations of the library, as reachability steps. -/
inductive Op (T : Type) where
  | ins (x : T)
  | addDep (p s : T)
  | popOne
  | popAll
deriving DecidableEq, Repr

/-- Apply one public operation to a state. -/
def applyOp (ts : TopologicalSort T) : Op T → TopologicalSort T
  | Op.ins x => (ts.insert x).1
  | Op.addDep p s => ts.add_dependency p s
  | Op.popOne => (ts.pop).1
  | Op.popAll => (ts.pop_all).1

/-- Run a sequence of public operations from the empty graph. -/
def run (ops : List (Op T)) : TopologicalSort T :=
  ops.foldl applyOp TopologicalSort.new

/-- A state is reachable when some sequence of public operations produces it
from `TopologicalSort::new()`. -/
def Reachable (ts : TopologicalSort T) : Prop :=
  ∃ ops : List (Op T), run ops = ts

/-- Number of tracked entries whose successor set contains `x` (the number
of pending predecessors `x` ought to have, possibly counting `x` itself). -/
def predCount (x : T) : List (T × Dependency T) → Nat
  | [] => 0
  | p :: rest => (if x ∈ p.2.succ then 1 else 0) + predCount x rest

/-- Number of tracked entries with key other than `x` whose successor set
contains `x` (the spec's "other elements Y" reading). -/
def otherPredCount (x : T) : List (T × Dependency T) → Nat
  | [] => 0
  | p :: rest => (if p.1 ≠ x ∧ x ∈ p.2.succ then 1 else 0) + otherPredCount x rest

/-- Well-formedness of a state: keys are distinct, successor sets are
duplicate-free and only mention tracked elements, and every `num_prec`
agrees with the actual predecessor count. -/
structure WFC (ts : TopologicalSort T) : Prop where
  nodup : (keysOf ts.top).Nodup
  succNodup : ∀ j e, mapLookup j ts.top = some e → e.succ.Nodup
  closed : ∀ j e, mapLookup j ts.top = some e → ∀ s ∈ e.succ, s ∈ keysOf ts.top
  count : ∀ j e, mapLookup j ts.top = some e → e.num_prec = predCount j ts.top

end TopoSort

namespace TopoSort

variable {T : Type} [DecidableEq T]

theorem mapLookup_nil {k : T} : mapLookup k ([] : List (T × Dependency T)) = none := rfl

theorem mapLookup_cons {k : T} {p : T × Dependency T} {rest : List (T × Dependency T)} :
    mapLookup k (p :: rest) = if p.1 = k then some p.2 else mapLookup k rest := rfl

theorem mapLookup_append_left {k : T} {m1 m2 : List (T × Dependency T)} {d : Dependency T}
    (h : mapLookup k m1 = some d) : mapLookup k (m1 ++ m2) = some d := by
  induction m1 with
  | nil => simp [mapLookup] at h
  | cons p rest ih =>
    rw [List.cons_append, mapLookup_cons]
    rw [mapLookup_cons] at h
    by_cases hp : p.1 = k
    · simpa [hp] using h
    · rw [if_neg hp] at h ⊢
      exact ih h

theorem mapLookup_append_right {k : T} {m1 m2 : List (T × Dependency T)}
    (h : mapLookup k m1 = none) : mapLookup k (m1 ++ m2) = mapLookup k m2 := by
  induction m1 with
  | nil => simp
  | cons p rest ih =>
    rw [mapLookup_cons] at h
    rw [List.cons_append, mapLookup_cons]
    by_cases hp : p.1 = k
    · simp [hp] at h
    · rw [if_neg hp] at h ⊢
      exact ih h

theorem mapLookup_eq_none {k : T} {m : List (T × Dependency T)} :
    mapLookup k m = none ↔ k ∉ keysOf m := by
  induction m with
  | nil => simp [mapLookup, keysOf]
  | cons p rest ih =>
    rw [mapLookup_cons]
    by_cases hp : p.1 = k
    · simp [keysOf, hp]
    · simp only [if_neg hp, ih, keysOf, List.map_cons, List.mem_cons]
      constructor
      · rintro h (h1 | h2)
        · exact hp h1.symm
        · exact h h2
      · intro h h2
        exact h (Or.inr h2)

theorem mapLookup_isSome {k : T} {m : List (T × Dependency T)} :
    k ∈ keysOf m ↔ ∃ d, mapLookup k m = some d := by
  constructor
  · intro h
    cases hl : mapLookup k m with
    | none => exact absurd (mapLookup_eq_none.mp hl) (by simp [h])
    | some d => exact ⟨d, rfl⟩
  · rintro ⟨d, hd⟩
    by_contra h
    rw [mapLookup_eq_none.mpr h] at hd
    cases hd

theorem mapLookup_mem {k : T} {m : List (T × Dependency T)} {d : Dependency T}
    (h : mapLookup k m = some d) : (k, d) ∈ m := by
  induction m with
  | nil => simp [mapLookup] at h
  | cons p rest ih =>
    rw [mapLookup_cons] at h
    by_cases hp : p.1 = k
    · rw [if_pos hp] at h
      cases p with
      | mk a e =>
        simp only at hp
        subst hp
        cases h
        exact List.mem_cons_self _ _
    · rw [if_neg hp] at h
      exact List.mem_cons_of_mem _ (ih h)

theorem mem_mapLookup {k : T} {m : List (T × Dependency T)} {d : Dependency T}
    (hnd : (keysOf m).Nodup) (h : (k, d) ∈ m) : mapLookup k m = some d := by
  induction m with
  | nil => simp at h
  | cons p rest ih =>
    rw [mapLookup_cons]
    rcases List.mem_cons.mp h with h1 | h2
    · simp [h1.symm]
    · have hk : k ∈ keysOf rest := List.mem_map.mpr ⟨(k, d), h2, rfl⟩
      have hne : p.1 ≠ k := by
        intro he
        rw [keysOf, List.map_cons, List.nodup_cons] at hnd
        exact hnd.1 (he ▸ hk)
      rw [if_neg hne]
      exact ih (by
        rw [keysOf, List.map_cons, List.nodup_cons] at hnd
        exact hnd.2) h2

set_option linter.unusedSectionVars false

theorem keysOf_append {m1 m2 : List (T × Dependency T)} :
    keysOf (m1 ++ m2) = keysOf m1 ++ keysOf m2 := by
  simp [keysOf]

theorem keysOf_mapSet {k : T} {v : Dependency T} {m : List (T × Dependency T)} :
    keysOf (mapSet k v m) = keysOf m := by
  induction m with
  | nil => rfl
  | cons p rest ih =>
    simp only [mapSet]
    by_cases hp : p.1 = k
    · simp [keysOf, hp]
    · simp [keysOf, if_neg hp]
      simpa [keysOf] using ih

theorem mapLookup_mapSet_self {k : T} {v d : Dependency T} {m : List (T × Dependency T)}
    (h : mapLookup k m = some d) : mapLookup k (mapSet k v m) = some v := by
  induction m with
  | nil => simp [mapLookup] at h
  | cons p rest ih =>
    rw [mapLookup_cons] at h
    simp only [mapSet]
    by_cases hp : p.1 = k
    · simp [hp, mapLookup_cons]
    · rw [if_neg hp] at h
      rw [if_neg hp, mapLookup_cons, if_neg hp]
      exact ih h

theorem mapLookup_mapSet_other {j k : T} {v : Dependency T} {m : List (T × Dependency T)}
    (h : j ≠ k) : mapLookup j (mapSet k v m) = mapLookup j m := by
  induction m with
  | nil => rfl
  | cons p rest ih =>
    simp only [mapSet]
    by_cases hp : p.1 = k
    · rw [if_pos hp]
      have h1 : ¬ (k = j) := fun he => h he.symm
      have h2 : ¬ (p.1 = j) := by rw [hp]; exact h1
      rw [mapLookup_cons, mapLookup_cons, if_neg h1, if_neg h2]
    · rw [if_neg hp, mapLookup_cons, mapLookup_cons]
      by_cases hj : p.1 = j
      · simp [hj]
      · rw [if_neg hj, if_neg hj]
        exact ih

theorem mapSet_mapSet {k : T} {v1 v2 : Dependency T} {m : List (T × Dependency T)} :
    mapSet k v2 (mapSet k v1 m) = mapSet k v2 m := by
  induction m with
  | nil => rfl
  | cons p rest ih =>
    simp only [mapSet]
    by_cases hp : p.1 = k
    · simp [hp, mapSet]
    · simp only [if_neg hp, mapSet, if_neg hp]
      rw [ih]

theorem mapSet_append_fresh {k : T} {v w : Dependency T} {m : List (T × Dependency T)}
    (h : mapLookup k m = none) : mapSet k v (m ++ [(k, w)]) = m ++ [(k, v)] := by
  induction m with
  | nil => simp [mapSet]
  | cons p rest ih =>
    rw [mapLookup_cons] at h
    by_cases hp : p.1 = k
    · simp [hp] at h
    · rw [if_neg hp] at h
      simp only [List.cons_append, mapSet, if_neg hp]
      exact congrArg (fun l => p :: l) (ih h)

theorem mapSet_append_left {k : T} {v d : Dependency T} {m m2 : List (T × Dependency T)}
    (h : mapLookup k m = some d) : mapSet k v (m ++ m2) = mapSet k v m ++ m2 := by
  induction m with
  | nil => simp [mapLookup] at h
  | cons p rest ih =>
    rw [mapLookup_cons] at h
    simp only [List.cons_append, mapSet]
    by_cases hp : p.1 = k
    · simp [hp]
    · rw [if_neg hp] at h
      simp only [if_neg hp, List.cons_append]
      exact congrArg (fun l => p :: l) (ih h)

theorem keysOf_mapErase {k : T} {m : List (T × Dependency T)} :
    keysOf (mapErase k m) = (keysOf m).erase k := by
  induction m with
  | nil => rfl
  | cons p rest ih =>
    simp only [mapErase]
    by_cases hp : p.1 = k
    · simp [keysOf, hp]
    · rw [if_neg hp]
      have h2 : (keysOf (p :: rest)).erase k = p.1 :: (keysOf rest).erase k := by
        simp only [keysOf, List.map_cons]
        exact List.erase_cons_tail (by simp [hp])
      rw [h2]
      show p.1 :: keysOf (mapErase k rest) = p.1 :: (keysOf rest).erase k
      rw [ih]

theorem mapLookup_mapErase_other {j k : T} {m : List (T × Dependency T)}
    (h : j ≠ k) : mapLookup j (mapErase k m) = mapLookup j m := by
  induction m with
  | nil => rfl
  | cons p rest ih =>
    simp only [mapErase]
    by_cases hp : p.1 = k
    · rw [if_pos hp]
      have hj : ¬ (p.1 = j) := by rw [hp]; exact fun he => h he.symm
      rw [mapLookup_cons, if_neg hj]
    · rw [if_neg hp, mapLookup_cons, mapLookup_cons]
      by_cases hj : p.1 = j
      · simp [hj]
      · rw [if_neg hj, if_neg hj]
        exact ih

theorem mapLookup_mapErase_self {k : T} {m : List (T × Dependency T)}
    (hnd : (keysOf m).Nodup) : mapLookup k (mapErase k m) = none := by
  rw [mapLookup_eq_none, keysOf_mapErase]
  intro hmem
  exact ((hnd.mem_erase_iff).mp hmem).1 rfl

end TopoSort

namespace TopoSort

variable {T : Type} [DecidableEq T]

set_option linter.unusedSectionVars false

theorem predCount_nil {x : T} : predCount x ([] : List (T × Dependency T)) = 0 := rfl

theorem predCount_cons {x : T} {p : T × Dependency T} {rest : List (T × Dependency T)} :
    predCount x (p :: rest) = (if x ∈ p.2.succ then 1 else 0) + predCount x rest := rfl

theorem predCount_append {x : T} {m1 m2 : List (T × Dependency T)} :
    predCount x (m1 ++ m2) = predCount x m1 + predCount x m2 := by
  induction m1 with
  | nil => simp [predCount]
  | cons p rest ih =>
    rw [List.cons_append, predCount_cons, predCount_cons, ih]
    omega

theorem predCount_pos {x : T} {m : List (T × Dependency T)} {p : T × Dependency T}
    (hp : p ∈ m) (hx : x ∈ p.2.succ) : 1 ≤ predCount x m := by
  induction m with
  | nil => simp at hp
  | cons q rest ih =>
    rw [predCount_cons]
    rcases List.mem_cons.mp hp with h1 | h2
    · subst h1
      rw [if_pos hx]
      omega
    · have := ih h2
      omega

theorem predCount_eq_zero {x : T} {m : List (T × Dependency T)}
    (h : ∀ p ∈ m, x ∉ p.2.succ) : predCount x m = 0 := by
  induction m with
  | nil => rfl
  | cons q rest ih =>
    rw [predCount_cons, if_neg (h q (List.mem_cons_self _ _)),
      ih (fun p hp => h p (List.mem_cons_of_mem _ hp))]

theorem predCount_mapSet {x k : T} {d v : Dependency T} {m : List (T × Dependency T)}
    (h : mapLookup k m = some d) :
    predCount x (mapSet k v m) + (if x ∈ d.succ then 1 else 0) =
      predCount x m + (if x ∈ v.succ then 1 else 0) := by
  induction m with
  | nil => simp [mapLookup] at h
  | cons p rest ih =>
    rw [mapLookup_cons] at h
    simp only [mapSet]
    by_cases hp : p.1 = k
    · rw [if_pos hp] at h ⊢
      cases h
      rw [predCount_cons, predCount_cons]
      simp only
      omega
    · rw [if_neg hp] at h ⊢
      rw [predCount_cons, predCount_cons]
      have := ih h
      omega

theorem predCount_mapSet_same_succ {x k : T} {d v : Dependency T}
    {m : List (T × Dependency T)} (h : mapLookup k m = some d) (hs : v.succ = d.succ) :
    predCount x (mapSet k v m) = predCount x m := by
  have := predCount_mapSet (x := x) (v := v) h
  rw [hs] at this
  omega

theorem predCount_mapErase {x k : T} {d : Dependency T} {m : List (T × Dependency T)}
    (h : mapLookup k m = some d) :
    predCount x (mapErase k m) + (if x ∈ d.succ then 1 else 0) = predCount x m := by
  induction m with
  | nil => simp [mapLookup] at h
  | cons p rest ih =>
    rw [mapLookup_cons] at h
    simp only [mapErase]
    by_cases hp : p.1 = k
    · rw [if_pos hp] at h ⊢
      cases h
      rw [predCount_cons]
      omega
    · rw [if_neg hp] at h ⊢
      rw [predCount_cons, predCount_cons]
      have := ih h
      omega

theorem predCount_decSucc {x s : T} {m : List (T × Dependency T)} :
    predCount x (decSucc m s) = predCount x m := by
  unfold decSucc
  cases h : mapLookup s m with
  | none => rfl
  | some e => exact predCount_mapSet_same_succ h rfl

theorem predCount_foldl_decSucc {x : T} {l : List T} {m : List (T × Dependency T)} :
    predCount x (l.foldl decSucc m) = predCount x m := by
  induction l generalizing m with
  | nil => rfl
  | cons s rest ih =>
    rw [List.foldl_cons, ih, predCount_decSucc]

theorem keysOf_decSucc {s : T} {m : List (T × Dependency T)} :
    keysOf (decSucc m s) = keysOf m := by
  unfold decSucc
  cases h : mapLookup s m with
  | none => rfl
  | some e => exact keysOf_mapSet

theorem keysOf_foldl_decSucc {l : List T} {m : List (T × Dependency T)} :
    keysOf (l.foldl decSucc m) = keysOf m := by
  induction l generalizing m with
  | nil => rfl
  | cons s rest ih =>
    rw [List.foldl_cons, ih, keysOf_decSucc]

theorem mapLookup_decSucc_other {j s : T} {m : List (T × Dependency T)} (h : j ≠ s) :
    mapLookup j (decSucc m s) = mapLookup j m := by
  unfold decSucc
  cases hl : mapLookup s m with
  | none => rfl
  | some e => exact mapLookup_mapSet_other h

theorem mapLookup_decSucc_self {s : T} {m : List (T × Dependency T)} :
    mapLookup s (decSucc m s) =
      (mapLookup s m).map
        (fun e => { num_prec := e.num_prec - 1, succ := e.succ }) := by
  unfold decSucc
  cases hl : mapLookup s m with
  | none => simp [hl]
  | some e => simp [mapLookup_mapSet_self hl]

theorem mapLookup_foldl_decSucc {j : T} {l : List T} {m : List (T × Dependency T)} :
    mapLookup j (l.foldl decSucc m) =
      (mapLookup j m).map
        (fun e => { num_prec := e.num_prec - l.count j, succ := e.succ }) := by
  induction l generalizing m with
  | nil =>
    cases h : mapLookup j m <;> simp [h]
  | cons s rest ih =>
    rw [List.foldl_cons, ih]
    by_cases hj : j = s
    · subst hj
      rw [mapLookup_decSucc_self]
      cases h : mapLookup j m with
      | none => simp
      | some e =>
        have hc : (j :: rest).count j = rest.count j + 1 := by
          simp [List.count_cons]
        show some (Dependency.mk (e.num_prec - 1 - rest.count j) e.succ) =
          some (Dependency.mk (e.num_prec - (j :: rest).count j) e.succ)
        rw [hc]
        have h2 : e.num_prec - 1 - rest.count j = e.num_prec - (rest.count j + 1) := by
          omega
        rw [h2]
    · rw [mapLookup_decSucc_other hj]
      have hsj : ¬ (s = j) := fun he => hj he.symm
      have hc : (s :: rest).count j = rest.count j := by
        simp [List.count_cons, hsj]
      rw [hc]

theorem findReady_mem {m : List (T × Dependency T)} {k : T}
    (h : findReady m = some k) : ∃ d, (k, d) ∈ m ∧ d.num_prec = 0 := by
  induction m with
  | nil => simp [findReady] at h
  | cons p rest ih =>
    unfold findReady at h
    by_cases hp : p.2.num_prec = 0
    · rw [if_pos hp] at h
      cases h
      exact ⟨p.2, List.mem_cons_self _ _, hp⟩
    · rw [if_neg hp] at h
      obtain ⟨d, hd, h0⟩ := ih h
      exact ⟨d, List.mem_cons_of_mem _ hd, h0⟩

theorem findReady_eq_none {m : List (T × Dependency T)} :
    findReady m = none ↔ ∀ p ∈ m, p.2.num_prec ≠ 0 := by
  induction m with
  | nil => simp [findReady]
  | cons p rest ih =>
    unfold findReady
    by_cases hp : p.2.num_prec = 0
    · simp [hp]
    · simp only [if_neg hp, ih]
      constructor
      · intro h q hq
        rcases List.mem_cons.mp hq with h1 | h2
        · subst h1; exact hp
        · exact h q h2
      · intro h q hq
        exact h q (List.mem_cons_of_mem _ hq)

theorem mem_readyKeys {m : List (T × Dependency T)} {x : T} :
    x ∈ readyKeys m ↔ ∃ p ∈ m, p.1 = x ∧ p.2.num_prec = 0 := by
  unfold readyKeys
  simp only [List.mem_map, List.mem_filter]
  constructor
  · rintro ⟨p, ⟨hm, hf⟩, hx⟩
    exact ⟨p, hm, hx, by simpa using hf⟩
  · rintro ⟨p, hm, hx, h0⟩
    exact ⟨p, ⟨hm, by simpa using h0⟩, hx⟩

theorem readyKeys_sublist {m : List (T × Dependency T)} :
    List.Sublist (readyKeys m) (keysOf m) :=
  (List.filter_sublist m).map Prod.fst

theorem readyKeys_nodup {m : List (T × Dependency T)} (h : (keysOf m).Nodup) :
    (readyKeys m).Nodup :=
  h.sublist readyKeys_sublist

theorem mem_readyKeys_lookup {m : List (T × Dependency T)} {x : T}
    (hnd : (keysOf m).Nodup) :
    x ∈ readyKeys m ↔ ∃ d, mapLookup x m = some d ∧ d.num_prec = 0 := by
  rw [mem_readyKeys]
  constructor
  · rintro ⟨p, hm, hx, h0⟩
    refine ⟨p.2, ?_, h0⟩
    have : (x, p.2) ∈ m := by
      cases p
      simp only at hx
      subst hx
      exact hm
    exact mem_mapLookup hnd this
  · rintro ⟨d, hd, h0⟩
    exact ⟨(x, d), mapLookup_mem hd, rfl, h0⟩

end TopoSort

namespace TopoSort

variable {T : Type} [DecidableEq T]

set_option linter.unusedSectionVars false

theorem length_eq_keysOf {m : List (T × Dependency T)} :
    m.length = (keysOf m).length := by
  simp [keysOf]

theorem remove_of_none {ts : TopologicalSort T} {k : T}
    (h : mapLookup k ts.top = none) : ts.remove k = (ts, none) := by
  unfold TopologicalSort.remove
  rw [h]

theorem remove_of_some {ts : TopologicalSort T} {k : T} {d : Dependency T}
    (h : mapLookup k ts.top = some d) :
    ts.remove k = (⟨d.succ.foldl decSucc (mapErase k ts.top)⟩, some d) := by
  unfold TopologicalSort.remove
  rw [h]

theorem remove_lookup_none {ts : TopologicalSort T} {k x : T}
    (h : mapLookup x ts.top = none) :
    mapLookup x ((ts.remove k).1).top = none := by
  cases hk : mapLookup k ts.top with
  | none => rw [remove_of_none hk]; exact h
  | some d =>
    rw [remove_of_some hk]
    have hxk : x ≠ k := fun he => by rw [he, hk] at h; cases h
    show mapLookup x (d.succ.foldl decSucc (mapErase k ts.top)) = none
    rw [mapLookup_foldl_decSucc, mapLookup_mapErase_other hxk, h]
    rfl

theorem remove_lookup_other {ts : TopologicalSort T} {k j : T} {d : Dependency T}
    (hk : mapLookup k ts.top = some d) (hj : j ≠ k) :
    mapLookup j ((ts.remove k).1).top =
      (mapLookup j ts.top).map
        (fun e => { num_prec := e.num_prec - d.succ.count j, succ := e.succ }) := by
  rw [remove_of_some hk]
  show mapLookup j (d.succ.foldl decSucc (mapErase k ts.top)) = _
  rw [mapLookup_foldl_decSucc, mapLookup_mapErase_other hj]

theorem remove_lookup_self {ts : TopologicalSort T} {k : T}
    (hnd : (keysOf ts.top).Nodup) :
    mapLookup k ((ts.remove k).1).top = none := by
  cases hk : mapLookup k ts.top with
  | none => rw [remove_of_none hk]; exact hk
  | some d =>
    rw [remove_of_some hk]
    show mapLookup k (d.succ.foldl decSucc (mapErase k ts.top)) = none
    rw [mapLookup_foldl_decSucc, mapLookup_mapErase_self hnd]
    rfl

theorem keysOf_remove {ts : TopologicalSort T} {k : T} {d : Dependency T}
    (hk : mapLookup k ts.top = some d) :
    keysOf ((ts.remove k).1).top = (keysOf ts.top).erase k := by
  rw [remove_of_some hk]
  show keysOf (d.succ.foldl decSucc (mapErase k ts.top)) = _
  rw [keysOf_foldl_decSucc, keysOf_mapErase]

theorem remove_length {ts : TopologicalSort T} {k : T} {d : Dependency T}
    (hk : mapLookup k ts.top = some d) :
    ((ts.remove k).1).top.length + 1 = ts.top.length := by
  have hkm : k ∈ keysOf ts.top := mapLookup_isSome.mpr ⟨d, hk⟩
  rw [length_eq_keysOf, length_eq_keysOf (m := ts.top), keysOf_remove hk,
    List.length_erase_of_mem hkm]
  have : 1 ≤ (keysOf ts.top).length := List.length_pos.mpr (by
    intro he
    rw [he] at hkm
    simp at hkm)
  omega

theorem predCount_remove {ts : TopologicalSort T} {k x : T} {d : Dependency T}
    (hk : mapLookup k ts.top = some d) :
    predCount x ((ts.remove k).1).top + (if x ∈ d.succ then 1 else 0) =
      predCount x ts.top := by
  rw [remove_of_some hk]
  show predCount x (d.succ.foldl decSucc (mapErase k ts.top)) + _ = _
  rw [predCount_foldl_decSucc, predCount_mapErase hk]

theorem WFC_remove {ts : TopologicalSort T} {k : T} {d : Dependency T}
    (h : WFC ts) (hk : mapLookup k ts.top = some d)
    (h0 : predCount k ts.top = 0) : WFC ((ts.remove k).1) := by
  have hnd := h.nodup
  refine ⟨?_, ?_, ?_, ?_⟩
  · rw [keysOf_remove hk]
    exact hnd.erase k
  · intro j e hje
    by_cases hj : j = k
    · rw [hj, remove_lookup_self hnd] at hje
      cases hje
    · rw [remove_lookup_other hk hj] at hje
      cases he0 : mapLookup j ts.top with
      | none => rw [he0] at hje; cases hje
      | some e0 =>
        rw [he0] at hje
        cases hje
        exact h.succNodup j e0 he0
  · intro j e hje s hs
    by_cases hj : j = k
    · rw [hj, remove_lookup_self hnd] at hje
      cases hje
    · rw [remove_lookup_other hk hj] at hje
      cases he0 : mapLookup j ts.top with
      | none => rw [he0] at hje; cases hje
      | some e0 =>
        rw [he0] at hje
        cases hje
        have hs0 : s ∈ e0.succ := hs
        have hsk : s ≠ k := by
          intro he
          subst he
          have : 1 ≤ predCount s ts.top :=
            predCount_pos (mapLookup_mem he0) hs0
          omega
        rw [keysOf_remove hk]
        exact (hnd.mem_erase_iff).mpr ⟨hsk, h.closed j e0 he0 s hs0⟩
  · intro j e hje
    by_cases hj : j = k
    · rw [hj, remove_lookup_self hnd] at hje
      cases hje
    · have hje2 := hje
      rw [remove_lookup_other hk hj] at hje2
      cases he0 : mapLookup j ts.top with
      | none => rw [he0] at hje2; cases hje2
      | some e0 =>
        rw [he0] at hje2
        cases hje2
        have hcnt := h.count j e0 he0
        have hdnd := h.succNodup k d hk
        have hcount : d.succ.count j = if j ∈ d.succ then 1 else 0 := by
          by_cases hjm : j ∈ d.succ
          · rw [if_pos hjm]
            exact List.count_eq_one_of_mem hdnd hjm
          · rw [if_neg hjm]
            exact List.count_eq_zero_of_not_mem hjm
        have hpc := predCount_remove (x := j) hk
        show e0.num_prec - d.succ.count j = _
        rw [hcount]
        by_cases hjm : j ∈ d.succ
        · rw [if_pos hjm]
          rw [if_pos hjm] at hpc
          omega
        · rw [if_neg hjm]
          rw [if_neg hjm] at hpc
          omega

theorem removeKeys_lookup_none {ts : TopologicalSort T} {x : T} {l : List T}
    (h : mapLookup x ts.top = none) :
    mapLookup x (removeKeys ts l).top = none := by
  induction l generalizing ts with
  | nil => exact h
  | cons k rest ih =>
    show mapLookup x (removeKeys ((ts.remove k).1) rest).top = none
    exact ih (remove_lookup_none h)

theorem removeKeys_spec {ts : TopologicalSort T} {l : List T}
    (h : WFC ts) (hnd : l.Nodup)
    (hl : ∀ x ∈ l, ∃ d, mapLookup x ts.top = some d ∧ d.num_prec = 0) :
    WFC (removeKeys ts l) ∧
    (removeKeys ts l).top.length + l.length = ts.top.length ∧
    (∀ x ∈ l, mapLookup x (removeKeys ts l).top = none) ∧
    (∀ j, j ∉ l → ∀ e, mapLookup j ts.top = some e →
      ∃ n, mapLookup j (removeKeys ts l).top = some (Dependency.mk n e.succ)) ∧
    (∀ j e2, mapLookup j (removeKeys ts l).top = some e2 →
      ∃ e, mapLookup j ts.top = some e ∧ e2.succ = e.succ) := by
  induction l generalizing ts with
  | nil =>
    refine ⟨h, rfl, by simp, ?_, ?_⟩
    · intro j _ e hje
      exact ⟨e.num_prec, hje⟩
    · intro j e2 hje
      exact ⟨e2, hje, rfl⟩
  | cons k rest ih =>
    obtain ⟨d, hk, h0num⟩ := hl k (List.mem_cons_self _ _)
    have h0 : predCount k ts.top = 0 := by
      have := h.count k d hk
      omega
    have hknotin : k ∉ rest := (List.nodup_cons.mp hnd).1
    have hndrest : rest.Nodup := (List.nodup_cons.mp hnd).2
    have hWFC1 : WFC ((ts.remove k).1) := WFC_remove h hk h0
    have hlrest : ∀ x ∈ rest, ∃ d2, mapLookup x ((ts.remove k).1).top = some d2 ∧
        d2.num_prec = 0 := by
      intro x hx
      obtain ⟨dx, hdx, h0x⟩ := hl x (List.mem_cons_of_mem _ hx)
      have hxk : x ≠ k := fun he => hknotin (he ▸ hx)
      refine ⟨Dependency.mk (dx.num_prec - d.succ.count x) dx.succ, ?_, ?_⟩
      · rw [remove_lookup_other hk hxk, hdx]
        rfl
      · show dx.num_prec - d.succ.count x = 0
        omega
    obtain ⟨ihWFC, ihlen, ihnone, ihsurv, ihshrink⟩ := ih hWFC1 hndrest hlrest
    have hstep : removeKeys ts (k :: rest) = removeKeys ((ts.remove k).1) rest := rfl
    refine ⟨hstep ▸ ihWFC, ?_, ?_, ?_, ?_⟩
    · rw [hstep]
      have := remove_length hk
      rw [List.length_cons]
      omega
    · intro x hx
      rcases List.mem_cons.mp hx with h1 | h2
      · subst h1
        rw [hstep]
        exact removeKeys_lookup_none (remove_lookup_self h.nodup)
      · rw [hstep]
        exact ihnone x h2
    · intro j hj e hje
      have hjk : j ≠ k := fun he => hj (he ▸ List.mem_cons_self _ _)
      have hjrest : j ∉ rest := fun he => hj (List.mem_cons_of_mem _ he)
      have hmid : mapLookup j ((ts.remove k).1).top =
          some (Dependency.mk (e.num_prec - d.succ.count j) e.succ) := by
        rw [remove_lookup_other hk hjk, hje]
        rfl
      obtain ⟨n, hn⟩ := ihsurv j hjrest _ hmid
      exact ⟨n, hstep ▸ hn⟩
    · intro j e2 hje
      rw [hstep] at hje
      obtain ⟨e1, he1, hsucc1⟩ := ihshrink j e2 hje
      by_cases hjk : j = k
      · rw [hjk, remove_lookup_self h.nodup] at he1
        cases he1
      · rw [remove_lookup_other hk hjk] at he1
        cases he0 : mapLookup j ts.top with
        | none => rw [he0] at he1; cases he1
        | some e0 =>
          rw [he0] at he1
          cases he1
          exact ⟨e0, rfl, hsucc1⟩

theorem pop_of_none {ts : TopologicalSort T} (h : findReady ts.top = none) :
    ts.pop = (ts, none) := by
  unfold TopologicalSort.pop
  rw [h]

theorem pop_of_some {ts : TopologicalSort T} {k : T} (h : findReady ts.top = some k) :
    ts.pop = ((ts.remove k).1, some k) := by
  unfold TopologicalSort.pop
  rw [h]

theorem WFC_pop {ts : TopologicalSort T} (h : WFC ts) : WFC ((ts.pop).1) := by
  cases hf : findReady ts.top with
  | none => rw [pop_of_none hf]; exact h
  | some k =>
    rw [pop_of_some hf]
    obtain ⟨d, hmem, h0num⟩ := findReady_mem hf
    have hk : mapLookup k ts.top = some d := mem_mapLookup h.nodup hmem
    have h0 : predCount k ts.top = 0 := by
      have := h.count k d hk
      omega
    exact WFC_remove h hk h0

theorem pop_all_ready {ts : TopologicalSort T} :
    (ts.pop_all).2 = readyKeys ts.top := rfl

theorem pop_all_state {ts : TopologicalSort T} :
    (ts.pop_all).1 = removeKeys ts (readyKeys ts.top) := rfl

theorem readyKeys_lookup_zero {ts : TopologicalSort T} (h : WFC ts) :
    ∀ x ∈ readyKeys ts.top, ∃ d, mapLookup x ts.top = some d ∧ d.num_prec = 0 :=
  fun _ hx => (mem_readyKeys_lookup h.nodup).mp hx

theorem WFC_pop_all {ts : TopologicalSort T} (h : WFC ts) : WFC ((ts.pop_all).1) := by
  rw [pop_all_state]
  exact (removeKeys_spec h (readyKeys_nodup h.nodup) (readyKeys_lookup_zero h)).1

end TopoSort

namespace TopoSort

variable {T : Type} [DecidableEq T]

set_option linter.unusedSectionVars false

theorem mapLookup_single {j k : T} {v : Dependency T} :
    mapLookup j [(k, v)] = if k = j then some v else none := rfl

theorem nodupSnoc {l : List T} {a : T} (h : l.Nodup) (ha : a ∉ l) :
    (l ++ [a]).Nodup := by
  rw [List.nodup_append]
  refine ⟨h, List.nodup_singleton a, ?_⟩
  intro x hx hxa
  rw [List.mem_singleton] at hxa
  exact ha (hxa ▸ hx)

theorem predCount_zero_of_closed {ts : TopologicalSort T} {x : T}
    (h : WFC ts) (hx : mapLookup x ts.top = none) : predCount x ts.top = 0 := by
  apply predCount_eq_zero
  intro p hp hmem
  have hpl : mapLookup p.1 ts.top = some p.2 := mem_mapLookup h.nodup hp
  have := h.closed p.1 p.2 hpl x hmem
  rw [mapLookup_eq_none] at hx
  exact hx this

theorem indSnoc {x a : T} {s : List T} (ha : a ∉ s) :
    (if x ∈ s ++ [a] then 1 else 0) =
      (if x ∈ s then 1 else 0) + (if x = a then 1 else 0) := by
  by_cases h1 : x ∈ s
  · have hxa : ¬ (x = a) := fun he => ha (he ▸ h1)
    simp [h1, hxa]
  · by_cases h2 : x = a
    · simp [h1, h2, ha]
    · have : x ∉ s ++ [a] := by
        rw [List.mem_append, List.mem_singleton]
        rintro (hc | hc)
        · exact h1 hc
        · exact h2 hc
      simp [h1, h2, this]

theorem insert_of_none {ts : TopologicalSort T} {elt : T}
    (h : mapLookup elt ts.top = none) :
    ts.insert elt = (⟨ts.top ++ [(elt, Dependency.new)]⟩, true) := by
  unfold TopologicalSort.insert
  rw [h]

theorem insert_of_some {ts : TopologicalSort T} {elt : T} {d : Dependency T}
    (h : mapLookup elt ts.top = some d) : ts.insert elt = (ts, false) := by
  unfold TopologicalSort.insert
  rw [h]

theorem WFC_insert {ts : TopologicalSort T} {elt : T} (h : WFC ts) :
    WFC ((ts.insert elt).1) := by
  cases he : mapLookup elt ts.top with
  | some d => rw [insert_of_some he]; exact h
  | none =>
    rw [insert_of_none he]
    have heltk : elt ∉ keysOf ts.top := mapLookup_eq_none.mp he
    have hkeys : keysOf (ts.top ++ [(elt, Dependency.new)]) = keysOf ts.top ++ [elt] := by
      rw [keysOf_append]; rfl
    refine ⟨?_, ?_, ?_, ?_⟩
    · show (keysOf (ts.top ++ [(elt, Dependency.new)])).Nodup
      rw [hkeys]
      exact nodupSnoc h.nodup heltk
    · intro j e hje
      show e.succ.Nodup
      cases hjm : mapLookup j ts.top with
      | some e0 =>
        rw [mapLookup_append_left hjm] at hje
        cases hje
        exact h.succNodup j e hjm
      | none =>
        rw [mapLookup_append_right hjm, mapLookup_single] at hje
        by_cases hej : elt = j
        · rw [if_pos hej] at hje
          cases hje
          exact List.nodup_nil
        · rw [if_neg hej] at hje
          cases hje
    · intro j e hje s hs
      show s ∈ keysOf (ts.top ++ [(elt, Dependency.new)])
      rw [hkeys, List.mem_append]
      cases hjm : mapLookup j ts.top with
      | some e0 =>
        rw [mapLookup_append_left hjm] at hje
        cases hje
        exact Or.inl (h.closed j e hjm s hs)
      | none =>
        rw [mapLookup_append_right hjm, mapLookup_single] at hje
        by_cases hej : elt = j
        · rw [if_pos hej] at hje
          cases hje
          cases hs
        · rw [if_neg hej] at hje
          cases hje
    · intro j e hje
      have hpc : predCount j (ts.top ++ [(elt, Dependency.new)]) = predCount j ts.top := by
        rw [predCount_append]
        show predCount j ts.top + ((if j ∈ ([] : List T) then 1 else 0) + 0) = _
        simp
      show e.num_prec = predCount j (ts.top ++ [(elt, Dependency.new)])
      rw [hpc]
      cases hjm : mapLookup j ts.top with
      | some e0 =>
        rw [mapLookup_append_left hjm] at hje
        cases hje
        exact h.count j e hjm
      | none =>
        rw [mapLookup_append_right hjm, mapLookup_single] at hje
        by_cases hej : elt = j
        · rw [if_pos hej] at hje
          cases hje
          show (0 : Nat) = predCount j ts.top
          have h2 := predCount_zero_of_closed h he
          rw [hej] at h2
          omega
        · rw [if_neg hej] at hje
          cases hje

/-- Intermediate well-formedness of the map between the two `entry` blocks of
`add_dependency`: one edge into `succ` has been recorded in a successor set
but `succ`'s own `num_prec` has not been incremented (or created) yet. -/
structure PreWF (m1 : List (T × Dependency T)) (succ : T) : Prop where
  nodup : (keysOf m1).Nodup
  succNodup : ∀ j e, mapLookup j m1 = some e → e.succ.Nodup
  semiClosed : ∀ j e, mapLookup j m1 = some e → ∀ s ∈ e.succ, s ∈ keysOf m1 ∨ s = succ
  count : ∀ j e, mapLookup j m1 = some e →
    predCount j m1 = e.num_prec + (if j = succ then 1 else 0)
  vac : ∀ x, mapLookup x m1 = none → predCount x m1 = (if x = succ then 1 else 0)

theorem addDepStep2_of_none {succ : T} {m : List (T × Dependency T)}
    (h : mapLookup succ m = none) :
    addDepStep2 succ m = m ++ [(succ, { num_prec := 1, succ := [] })] := by
  unfold addDepStep2
  rw [h]

theorem addDepStep2_of_some {succ : T} {m : List (T × Dependency T)} {e : Dependency T}
    (h : mapLookup succ m = some e) :
    addDepStep2 succ m = mapSet succ { num_prec := e.num_prec + 1, succ := e.succ } m := by
  unfold addDepStep2
  rw [h]

theorem WFC_addDepStep2 {succ : T} {m1 : List (T × Dependency T)}
    (h : PreWF m1 succ) : WFC (⟨addDepStep2 succ m1⟩ : TopologicalSort T) := by
  cases hs : mapLookup succ m1 with
  | none =>
    rw [addDepStep2_of_none hs]
    have hsk : succ ∉ keysOf m1 := mapLookup_eq_none.mp hs
    have hkeys : keysOf (m1 ++ [(succ, Dependency.mk 1 [])]) = keysOf m1 ++ [succ] := by
      rw [keysOf_append]; rfl
    have hpc : ∀ x, predCount x (m1 ++ [(succ, Dependency.mk 1 [])]) = predCount x m1 := by
      intro x
      rw [predCount_append]
      show predCount x m1 + ((if x ∈ ([] : List T) then 1 else 0) + 0) = _
      simp
    refine ⟨?_, ?_, ?_, ?_⟩
    · show (keysOf (m1 ++ [(succ, Dependency.mk 1 [])])).Nodup
      rw [hkeys]
      exact nodupSnoc h.nodup hsk
    · intro j e hje
      cases hjm : mapLookup j m1 with
      | some e0 =>
        rw [mapLookup_append_left hjm] at hje
        cases hje
        exact h.succNodup j e hjm
      | none =>
        rw [mapLookup_append_right hjm, mapLookup_single] at hje
        by_cases hej : succ = j
        · rw [if_pos hej] at hje
          cases hje
          exact List.nodup_nil
        · rw [if_neg hej] at hje
          cases hje
    · intro j e hje s hmem
      show s ∈ keysOf (m1 ++ [(succ, Dependency.mk 1 [])])
      rw [hkeys, List.mem_append, List.mem_singleton]
      cases hjm : mapLookup j m1 with
      | some e0 =>
        rw [mapLookup_append_left hjm] at hje
        cases hje
        rcases h.semiClosed j e hjm s hmem with h1 | h2
        · exact Or.inl h1
        · exact Or.inr h2
      | none =>
        rw [mapLookup_append_right hjm, mapLookup_single] at hje
        by_cases hej : succ = j
        · rw [if_pos hej] at hje
          cases hje
          cases hmem
        · rw [if_neg hej] at hje
          cases hje
    · intro j e hje
      show e.num_prec = predCount j (m1 ++ [(succ, Dependency.mk 1 [])])
      rw [hpc]
      cases hjm : mapLookup j m1 with
      | some e0 =>
        rw [mapLookup_append_left hjm] at hje
        cases hje
        have hjs : ¬ (j = succ) := by
          intro he
          rw [he, hs] at hjm
          cases hjm
        have := h.count j e hjm
        rw [if_neg hjs] at this
        omega
      | none =>
        rw [mapLookup_append_right hjm, mapLookup_single] at hje
        by_cases hej : succ = j
        · rw [if_pos hej] at hje
          cases hje
          show (1 : Nat) = predCount j m1
          have := h.vac j hjm
          rw [if_pos hej.symm] at this
          omega
        · rw [if_neg hej] at hje
          cases hje
  | some es =>
    rw [addDepStep2_of_some hs]
    have hkeys : keysOf (mapSet succ (Dependency.mk (es.num_prec + 1) es.succ) m1) =
        keysOf m1 := keysOf_mapSet
    have hpc : ∀ x, predCount x (mapSet succ (Dependency.mk (es.num_prec + 1) es.succ) m1) =
        predCount x m1 := fun x => predCount_mapSet_same_succ hs rfl
    refine ⟨?_, ?_, ?_, ?_⟩
    · show (keysOf (mapSet succ (Dependency.mk (es.num_prec + 1) es.succ) m1)).Nodup
      rw [hkeys]
      exact h.nodup
    · intro j e hje
      by_cases hj : j = succ
      · subst hj
        rw [mapLookup_mapSet_self hs] at hje
        cases hje
        exact h.succNodup j es hs
      · rw [mapLookup_mapSet_other hj] at hje
        exact h.succNodup j e hje
    · intro j e hje s hmem
      show s ∈ keysOf (mapSet succ (Dependency.mk (es.num_prec + 1) es.succ) m1)
      rw [hkeys]
      have hsemi : ∀ e0, mapLookup j m1 = some e0 → s ∈ e0.succ → s ∈ keysOf m1 := by
        intro e0 h0 hm0
        rcases h.semiClosed j e0 h0 s hm0 with h1 | h2
        · exact h1
        · exact h2 ▸ mapLookup_isSome.mpr ⟨es, hs⟩
      by_cases hj : j = succ
      · subst hj
        rw [mapLookup_mapSet_self hs] at hje
        cases hje
        exact hsemi es hs hmem
      · rw [mapLookup_mapSet_other hj] at hje
        exact hsemi e hje hmem
    · intro j e hje
      show e.num_prec = predCount j (mapSet succ (Dependency.mk (es.num_prec + 1) es.succ) m1)
      rw [hpc]
      by_cases hj : j = succ
      · subst hj
        rw [mapLookup_mapSet_self hs] at hje
        cases hje
        have := h.count j es hs
        rw [if_pos rfl] at this
        show es.num_prec + 1 = predCount j m1
        omega
      · rw [mapLookup_mapSet_other hj] at hje
        have := h.count j e hje
        rw [if_neg hj] at this
        omega

end TopoSort

namespace TopoSort

variable {T : Type} [DecidableEq T]

set_option linter.unusedSectionVars false

theorem predCount_single {x k : T} {v : Dependency T} :
    predCount x [(k, v)] = if x ∈ v.succ then 1 else 0 := by
  rw [predCount_cons, predCount_nil]
  simp

theorem addDep_of_vacant {ts : TopologicalSort T} {prec succ : T}
    (hp : mapLookup prec ts.top = none) :
    ts.add_dependency prec succ =
      ⟨addDepStep2 succ (ts.top ++ [(prec, Dependency.mk 0 [succ])])⟩ := by
  unfold TopologicalSort.add_dependency
  rw [hp]

theorem addDep_of_dup {ts : TopologicalSort T} {prec succ : T} {d : Dependency T}
    (hp : mapLookup prec ts.top = some d) (hs : succ ∈ d.succ) :
    ts.add_dependency prec succ = ts := by
  unfold TopologicalSort.add_dependency
  rw [hp]
  simp [hs]

theorem addDep_of_new {ts : TopologicalSort T} {prec succ : T} {d : Dependency T}
    (hp : mapLookup prec ts.top = some d) (hs : succ ∉ d.succ) :
    ts.add_dependency prec succ =
      ⟨addDepStep2 succ (mapSet prec (Dependency.mk d.num_prec (d.succ ++ [succ])) ts.top)⟩ := by
  unfold TopologicalSort.add_dependency
  rw [hp]
  simp [hs]

theorem PreWF_vacant {ts : TopologicalSort T} {prec succ : T} (h : WFC ts)
    (hp : mapLookup prec ts.top = none) :
    PreWF (ts.top ++ [(prec, Dependency.mk 0 [succ])]) succ := by
  have hpk : prec ∉ keysOf ts.top := mapLookup_eq_none.mp hp
  have hkeys : keysOf (ts.top ++ [(prec, Dependency.mk 0 [succ])]) =
      keysOf ts.top ++ [prec] := by
    rw [keysOf_append]; rfl
  have hpc : ∀ x, predCount x (ts.top ++ [(prec, Dependency.mk 0 [succ])]) =
      predCount x ts.top + (if x = succ then 1 else 0) := by
    intro x
    rw [predCount_append, predCount_single]
    by_cases hxs : x = succ <;> simp [hxs]
  refine ⟨?_, ?_, ?_, ?_, ?_⟩
  · rw [hkeys]
    exact nodupSnoc h.nodup hpk
  · intro j e hje
    cases hjm : mapLookup j ts.top with
    | some e0 =>
      rw [mapLookup_append_left hjm] at hje
      cases hje
      exact h.succNodup j e hjm
    | none =>
      rw [mapLookup_append_right hjm, mapLookup_single] at hje
      by_cases hej : prec = j
      · rw [if_pos hej] at hje
        cases hje
        exact List.nodup_singleton succ
      · rw [if_neg hej] at hje
        cases hje
  · intro j e hje s hmem
    cases hjm : mapLookup j ts.top with
    | some e0 =>
      rw [mapLookup_append_left hjm] at hje
      cases hje
      refine Or.inl ?_
      rw [hkeys, List.mem_append]
      exact Or.inl (h.closed j e hjm s hmem)
    | none =>
      rw [mapLookup_append_right hjm, mapLookup_single] at hje
      by_cases hej : prec = j
      · rw [if_pos hej] at hje
        cases hje
        rw [List.mem_singleton] at hmem
        exact Or.inr hmem
      · rw [if_neg hej] at hje
        cases hje
  · intro j e hje
    rw [hpc]
    cases hjm : mapLookup j ts.top with
    | some e0 =>
      rw [mapLookup_append_left hjm] at hje
      cases hje
      rw [h.count j e hjm]
    | none =>
      rw [mapLookup_append_right hjm, mapLookup_single] at hje
      by_cases hej : prec = j
      · rw [if_pos hej] at hje
        cases hje
        show predCount j ts.top + _ = 0 + _
        rw [predCount_zero_of_closed h (hej ▸ hp)]
      · rw [if_neg hej] at hje
        cases hje
  · intro x hx
    rw [hpc]
    have hxm : mapLookup x ts.top = none := by
      cases hxm : mapLookup x ts.top with
      | none => rfl
      | some e0 =>
        rw [mapLookup_append_left hxm] at hx
        cases hx
    rw [predCount_zero_of_closed h hxm, Nat.zero_add]

theorem PreWF_newEdge {ts : TopologicalSort T} {prec succ : T} {d : Dependency T}
    (h : WFC ts) (hp : mapLookup prec ts.top = some d) (hs : succ ∉ d.succ) :
    PreWF (mapSet prec (Dependency.mk d.num_prec (d.succ ++ [succ])) ts.top) succ := by
  have hkeys : keysOf (mapSet prec (Dependency.mk d.num_prec (d.succ ++ [succ])) ts.top) =
      keysOf ts.top := keysOf_mapSet
  have hpc : ∀ x, predCount x (mapSet prec (Dependency.mk d.num_prec (d.succ ++ [succ])) ts.top) =
      predCount x ts.top + (if x = succ then 1 else 0) := by
    intro x
    have h1 := predCount_mapSet (x := x)
      (v := Dependency.mk d.num_prec (d.succ ++ [succ])) hp
    have h2 : (if x ∈ (Dependency.mk d.num_prec (d.succ ++ [succ])).succ then 1 else 0) =
        (if x ∈ d.succ then 1 else 0) + (if x = succ then 1 else 0) := indSnoc hs
    omega
  refine ⟨?_, ?_, ?_, ?_, ?_⟩
  · rw [hkeys]
    exact h.nodup
  · intro j e hje
    by_cases hj : j = prec
    · subst hj
      rw [mapLookup_mapSet_self hp] at hje
      cases hje
      exact nodupSnoc (h.succNodup j d hp) hs
    · rw [mapLookup_mapSet_other hj] at hje
      exact h.succNodup j e hje
  · intro j e hje s hmem
    rw [hkeys]
    by_cases hj : j = prec
    · subst hj
      rw [mapLookup_mapSet_self hp] at hje
      cases hje
      rcases List.mem_append.mp hmem with h1 | h2
      · exact Or.inl (h.closed j d hp s h1)
      · rw [List.mem_singleton] at h2
        exact Or.inr h2
    · rw [mapLookup_mapSet_other hj] at hje
      exact Or.inl (h.closed j e hje s hmem)
  · intro j e hje
    rw [hpc]
    by_cases hj : j = prec
    · subst hj
      rw [mapLookup_mapSet_self hp] at hje
      cases hje
      rw [h.count j d hp]
    · rw [mapLookup_mapSet_other hj] at hje
      rw [h.count j e hje]
  · intro x hx
    rw [hpc]
    have hxp : x ≠ prec := by
      intro he
      rw [he, mapLookup_mapSet_self hp] at hx
      cases hx
    rw [mapLookup_mapSet_other hxp] at hx
    rw [predCount_zero_of_closed h hx, Nat.zero_add]

theorem WFC_add_dependency {ts : TopologicalSort T} {prec succ : T} (h : WFC ts) :
    WFC (ts.add_dependency prec succ) := by
  cases hp : mapLookup prec ts.top with
  | none =>
    rw [addDep_of_vacant hp]
    exact WFC_addDepStep2 (PreWF_vacant h hp)
  | some d =>
    by_cases hs : succ ∈ d.succ
    · rw [addDep_of_dup hp hs]
      exact h
    · rw [addDep_of_new hp hs]
      exact WFC_addDepStep2 (PreWF_newEdge h hp hs)

theorem WFC_new : WFC (TopologicalSort.new : TopologicalSort T) := by
  refine ⟨List.nodup_nil, ?_, ?_, ?_⟩
  · intro j e hje
    cases hje
  · intro j e hje
    cases hje
  · intro j e hje
    cases hje

theorem WFC_applyOp {ts : TopologicalSort T} {op : Op T} (h : WFC ts) :
    WFC (applyOp ts op) := by
  cases op with
  | ins x => exact WFC_insert h
  | addDep p s => exact WFC_add_dependency h
  | popOne => exact WFC_pop h
  | popAll => exact WFC_pop_all h

theorem WFC_foldl {ts : TopologicalSort T} {ops : List (Op T)} (h : WFC ts) :
    WFC (ops.foldl applyOp ts) := by
  induction ops generalizing ts with
  | nil => exact h
  | cons op rest ih => exact ih (WFC_applyOp h)

theorem WFC_run {ops : List (Op T)} : WFC (run ops : TopologicalSort T) :=
  WFC_foldl WFC_new

theorem WFC_of_Reachable {ts : TopologicalSort T} (h : Reachable ts) : WFC ts := by
  obtain ⟨ops, hops⟩ := h
  exact hops ▸ WFC_run

end TopoSort

namespace TopoSort

variable {T : Type} [DecidableEq T]

set_option linter.unusedSectionVars false

theorem otherPredCount_cons {x : T} {p : T × Dependency T} {rest : List (T × Dependency T)} :
    otherPredCount x (p :: rest) =
      (if p.1 ≠ x ∧ x ∈ p.2.succ then 1 else 0) + otherPredCount x rest := rfl

theorem otherPredCount_of_not_key {x : T} {m : List (T × Dependency T)}
    (h : x ∉ keysOf m) : otherPredCount x m = predCount x m := by
  induction m with
  | nil => rfl
  | cons p rest ih =>
    have hp1 : p.1 ≠ x := by
      intro he
      exact h (by rw [keysOf, List.map_cons, he]; exact List.mem_cons_self _ _)
    have hrest : x ∉ keysOf rest := by
      intro he
      exact h (by rw [keysOf, List.map_cons]; exact List.mem_cons_of_mem _ he)
    rw [otherPredCount_cons, predCount_cons, ih hrest]
    by_cases hm : x ∈ p.2.succ <;> simp [hp1, hm]

theorem predCount_split {x : T} {m : List (T × Dependency T)} {d : Dependency T}
    (hnd : (keysOf m).Nodup) (hx : mapLookup x m = some d) :
    predCount x m = otherPredCount x m + (if x ∈ d.succ then 1 else 0) := by
  induction m with
  | nil => cases hx
  | cons p rest ih =>
    rw [mapLookup_cons] at hx
    rw [predCount_cons, otherPredCount_cons]
    have hnd2 : (keysOf rest).Nodup := by
      rw [keysOf, List.map_cons, List.nodup_cons] at hnd
      exact hnd.2
    by_cases hp : p.1 = x
    · rw [if_pos hp] at hx
      cases hx
      have hxrest : x ∉ keysOf rest := by
        rw [keysOf, List.map_cons, List.nodup_cons] at hnd
        exact hp ▸ hnd.1
      rw [otherPredCount_of_not_key hxrest]
      have hind : (if p.1 ≠ x ∧ x ∈ p.2.succ then 1 else 0) = 0 := by
        simp [hp]
      rw [hind]
      omega
    · rw [if_neg hp] at hx
      rw [ih hnd2 hx]
      have hind : (if p.1 ≠ x ∧ x ∈ p.2.succ then 1 else 0) =
          (if x ∈ p.2.succ then 1 else 0) := by
        by_cases hm : x ∈ p.2.succ <;> simp [hp, hm]
      rw [hind]
      omega

end TopoSort

namespace TopoSort

variable {T : Type} [DecidableEq T]

set_option linter.unusedSectionVars false

theorem addDepStep2_lookup_mono {j b : T} {m1 : List (T × Dependency T)} {e : Dependency T}
    (he : mapLookup j m1 = some e) :
    ∃ e2, mapLookup j (addDepStep2 b m1) = some e2 ∧ e2.succ = e.succ := by
  cases hs2 : mapLookup b m1 with
  | none =>
    rw [addDepStep2_of_none hs2]
    exact ⟨e, mapLookup_append_left he, rfl⟩
  | some es =>
    rw [addDepStep2_of_some hs2]
    by_cases hj : j = b
    · subst hj
      rw [he] at hs2
      cases hs2
      exact ⟨Dependency.mk (e.num_prec + 1) e.succ, mapLookup_mapSet_self he, rfl⟩
    · exact ⟨e, by rw [mapLookup_mapSet_other hj]; exact he, rfl⟩

theorem addDep_lookup_mono {ts : TopologicalSort T} {a b j : T} {e : Dependency T}
    (he : mapLookup j ts.top = some e) :
    ∃ e2, mapLookup j ((ts.add_dependency a b).top) = some e2 ∧
      ∀ y ∈ e.succ, y ∈ e2.succ := by
  cases hp : mapLookup a ts.top with
  | none =>
    rw [addDep_of_vacant hp]
    have hja : j ≠ a := by
      intro hja
      rw [hja, hp] at he
      cases he
    have h1 : mapLookup j (ts.top ++ [(a, Dependency.mk 0 [b])]) = some e :=
      mapLookup_append_left he
    obtain ⟨e2, h2, hsucc⟩ := addDepStep2_lookup_mono (b := b) h1
    exact ⟨e2, h2, fun y hy => hsucc ▸ hy⟩
  | some d =>
    by_cases hs : b ∈ d.succ
    · rw [addDep_of_dup hp hs]
      exact ⟨e, he, fun y hy => hy⟩
    · rw [addDep_of_new hp hs]
      by_cases hj : j = a
      · subst hj
        rw [he] at hp
        cases hp
        have h1 : mapLookup j (mapSet j (Dependency.mk e.num_prec (e.succ ++ [b])) ts.top) =
            some (Dependency.mk e.num_prec (e.succ ++ [b])) :=
          mapLookup_mapSet_self he
        obtain ⟨e2, h2, hsucc⟩ := addDepStep2_lookup_mono (b := b) h1
        refine ⟨e2, h2, fun y hy => ?_⟩
        rw [hsucc]
        show y ∈ e.succ ++ [b]
        rw [List.mem_append]
        exact Or.inl hy
      · have h1 : mapLookup j (mapSet a (Dependency.mk d.num_prec (d.succ ++ [b])) ts.top) =
            some e := by
          rw [mapLookup_mapSet_other hj]
          exact he
        obtain ⟨e2, h2, hsucc⟩ := addDepStep2_lookup_mono (b := b) h1
        exact ⟨e2, h2, fun y hy => hsucc ▸ hy⟩

theorem insert_lookup_mono {ts : TopologicalSort T} {elt j : T} {e : Dependency T}
    (he : mapLookup j ts.top = some e) :
    mapLookup j ((ts.insert elt).1).top = some e := by
  cases hi : mapLookup elt ts.top with
  | some d => rw [insert_of_some hi]; exact he
  | none => rw [insert_of_none hi]; exact mapLookup_append_left he

theorem add_dependency_estab (ts : TopologicalSort T) (p s : T) :
    ∃ d, mapLookup p ((ts.add_dependency p s).top) = some d ∧ s ∈ d.succ := by
  cases hp : mapLookup p ts.top with
  | none =>
    rw [addDep_of_vacant hp]
    have h1 : mapLookup p (ts.top ++ [(p, Dependency.mk 0 [s])]) =
        some (Dependency.mk 0 [s]) := by
      rw [mapLookup_append_right hp, mapLookup_single, if_pos rfl]
    obtain ⟨e2, h2, hsucc⟩ := addDepStep2_lookup_mono (b := s) h1
    refine ⟨e2, h2, ?_⟩
    rw [hsucc]
    exact List.mem_singleton.mpr rfl
  | some d =>
    by_cases hs : s ∈ d.succ
    · rw [addDep_of_dup hp hs]
      exact ⟨d, hp, hs⟩
    · rw [addDep_of_new hp hs]
      have h1 : mapLookup p (mapSet p (Dependency.mk d.num_prec (d.succ ++ [s])) ts.top) =
          some (Dependency.mk d.num_prec (d.succ ++ [s])) := mapLookup_mapSet_self hp
      obtain ⟨e2, h2, hsucc⟩ := addDepStep2_lookup_mono (b := s) h1
      refine ⟨e2, h2, ?_⟩
      rw [hsucc]
      show s ∈ d.succ ++ [s]
      rw [List.mem_append, List.mem_singleton]
      exact Or.inr rfl

/-- C2: in every state reachable from the empty graph by insert,
add_dependency, pop and pop_all calls, every tracked element's `num_prec`
equals the number of currently tracked entries (possibly including the
element's own entry) whose successor set contains it. -/
theorem num_prec_counts_preds {ts : TopologicalSort T} (h : Reachable ts) :
    ∀ x d, mapLookup x ts.top = some d → d.num_prec = predCount x ts.top :=
  fun x d hx => (WFC_of_Reachable h).count x d hx

theorem num_prec_counts_preds_witness :
    (Dependency.mk 1 [] : Dependency Nat).num_prec =
      predCount 1 (run [Op.addDep (0 : Nat) 1]).top :=
  num_prec_counts_preds ⟨[Op.addDep 0 1], rfl⟩ 1 (Dependency.mk 1 []) rfl

/-- C9 (corrected): counting only entries with a *different* key is wrong on
self-loops; the correct statement adds one exactly when the element lists
itself as a successor. -/
theorem num_prec_other_preds {ts : TopologicalSort T} (h : Reachable ts) :
    ∀ x d, mapLookup x ts.top = some d →
      d.num_prec = otherPredCount x ts.top + (if x ∈ d.succ then 1 else 0) := by
  intro x d hx
  have hW := WFC_of_Reachable h
  rw [hW.count x d hx]
  exact predCount_split hW.nodup hx

theorem num_prec_other_preds_witness :
    (Dependency.mk 1 [0] : Dependency Nat).num_prec =
      otherPredCount 0 (run [Op.addDep (0 : Nat) 0]).top +
        (if (0 : Nat) ∈ (Dependency.mk 1 [0] : Dependency Nat).succ then 1 else 0) :=
  num_prec_other_preds ⟨[Op.addDep 0 0], rfl⟩ 0 (Dependency.mk 1 [0]) rfl

/-- C9 counterexample: after `add_dependency(0, 0)` the element 0 is tracked
with `num_prec = 1`, yet no *other* tracked element lists 0 as a successor,
refuting the claim that `num_prec` counts only distinct predecessors. -/
theorem num_prec_not_other_preds :
    ∃ ts : TopologicalSort Nat, Reachable ts ∧ ∃ x d,
      mapLookup x ts.top = some d ∧ d.num_prec ≠ otherPredCount x ts.top := by
  refine ⟨run [Op.addDep 0 0], ⟨[Op.addDep 0 0], rfl⟩, 0, Dependency.mk 1 [0], rfl, ?_⟩
  decide

/-- C3: one `pop_all` call returns exactly the set of elements whose
`num_prec` is zero at the moment the call begins (the key snapshot is taken
before any removal, so the removals cannot change the result set). -/
theorem pop_all_snapshot {ts : TopologicalSort T} (h : Reachable ts) :
    ∀ x, x ∈ (ts.pop_all).2 ↔ ∃ d, mapLookup x ts.top = some d ∧ d.num_prec = 0 := by
  intro x
  rw [pop_all_ready]
  exact mem_readyKeys_lookup (WFC_of_Reachable h).nodup

theorem pop_all_snapshot_witness :
    0 ∈ ((run [Op.addDep (0 : Nat) 1]).pop_all).2 :=
  (pop_all_snapshot ⟨[Op.addDep 0 1], rfl⟩ 0).mpr ⟨Dependency.mk 0 [1], rfl, rfl⟩

/-- C4: `add_dependency` is idempotent: a second identical call finds the
edge already present in the predecessor's successor set and returns early,
leaving the state (tracked set, every num_prec, every successor set)
structurally identical. -/
theorem add_dependency_idem (ts : TopologicalSort T) (p s : T) :
    (ts.add_dependency p s).add_dependency p s = ts.add_dependency p s := by
  obtain ⟨d, hd, hs⟩ := add_dependency_estab ts p s
  exact addDep_of_dup hd hs

/-- C5: in a non-empty graph where every tracked element has a pending
predecessor (e.g. a cycle), `pop` returns none and `pop_all` returns the
empty vector, both leaving the state unchanged, while `len` stays positive. -/
theorem cycle_stall {ts : TopologicalSort T} (hne : ts.top ≠ [])
    (hall : ∀ p ∈ ts.top, p.2.num_prec ≠ 0) :
    ts.pop = (ts, none) ∧ ts.pop_all = (ts, []) ∧ 0 < ts.len := by
  have hf : findReady ts.top = none := findReady_eq_none.mpr hall
  have hr : readyKeys ts.top = [] := by
    cases hrk : readyKeys ts.top with
    | nil => rfl
    | cons a l =>
      have ha : a ∈ readyKeys ts.top := by
        rw [hrk]
        exact List.mem_cons_self _ _
      obtain ⟨p, hm, _, h0⟩ := mem_readyKeys.mp ha
      exact absurd h0 (hall p hm)
  refine ⟨pop_of_none hf, ?_, ?_⟩
  · show (removeKeys ts (readyKeys ts.top), readyKeys ts.top) = (ts, [])
    rw [hr]
    rfl
  · show 0 < ts.top.length
    exact List.length_pos.mpr hne

theorem cycle_stall_witness :
    (run [Op.addDep (0 : Nat) 1, Op.addDep 1 0]).pop =
        (run [Op.addDep (0 : Nat) 1, Op.addDep 1 0], none) ∧
      (run [Op.addDep (0 : Nat) 1, Op.addDep 1 0]).pop_all =
        (run [Op.addDep (0 : Nat) 1, Op.addDep 1 0], []) ∧
      0 < (run [Op.addDep (0 : Nat) 1, Op.addDep 1 0]).len :=
  cycle_stall (by decide) (by decide)

end TopoSort

namespace TopoSort

variable {T : Type} [DecidableEq T]

set_option linter.unusedSectionVars false

/-- Checked variant of one step of the successor loop in `remove`, following
the spec's words: a successor that is no longer tracked is silently skipped,
while decrementing a zero count (an underflow) signals an error (`none`). -/
def decSuccChecked (om : Option (List (T × Dependency T))) (s : T) :
    Option (List (T × Dependency T)) :=
  match om with
  | none => none
  | some m =>
    match mapLookup s m with
    | none => some m
    | some e =>
      if e.num_prec = 0 then none
      else some (mapSet s (Dependency.mk (e.num_prec - 1) e.succ) m)

/-- Checked variant of `remove`, following the spec's words: identical to
`remove` except that an underflowing decrement signals an error (`none`). -/
def removeChecked (ts : TopologicalSort T) (k : T) :
    Option (TopologicalSort T × Option (Dependency T)) :=
  match mapLookup k ts.top with
  | none => some (ts, none)
  | some d =>
    match d.succ.foldl decSuccChecked (some (mapErase k ts.top)) with
    | none => none
    | some m => some (⟨m⟩, some d)

theorem foldl_decSuccChecked_eq {l : List T} {m : List (T × Dependency T)}
    (hnd : l.Nodup)
    (hge : ∀ s ∈ l, ∀ e, mapLookup s m = some e → 1 ≤ e.num_prec) :
    l.foldl decSuccChecked (some m) = some (l.foldl decSucc m) := by
  induction l generalizing m with
  | nil => rfl
  | cons s rest ih =>
    have hndr : rest.Nodup := (List.nodup_cons.mp hnd).2
    have hsr : s ∉ rest := (List.nodup_cons.mp hnd).1
    rw [List.foldl_cons, List.foldl_cons]
    cases hs : mapLookup s m with
    | none =>
      have h1 : decSuccChecked (some m) s = some m := by
        show (match mapLookup s m with
          | none => some m
          | some e =>
            if e.num_prec = 0 then none
            else some (mapSet s (Dependency.mk (e.num_prec - 1) e.succ) m)) = some m
        rw [hs]
      have h2 : decSucc m s = m := by
        unfold decSucc
        rw [hs]
      rw [h1, h2]
      exact ih hndr (fun x hx => hge x (List.mem_cons_of_mem _ hx))
    | some e =>
      have hpos : 1 ≤ e.num_prec := hge s (List.mem_cons_self _ _) e hs
      have h1 : decSuccChecked (some m) s =
          some (mapSet s (Dependency.mk (e.num_prec - 1) e.succ) m) := by
        show (match mapLookup s m with
          | none => some m
          | some e =>
            if e.num_prec = 0 then none
            else some (mapSet s (Dependency.mk (e.num_prec - 1) e.succ) m)) =
          some (mapSet s (Dependency.mk (e.num_prec - 1) e.succ) m)
        rw [hs]
        show (if e.num_prec = 0 then none
          else some (mapSet s (Dependency.mk (e.num_prec - 1) e.succ) m)) =
          some (mapSet s (Dependency.mk (e.num_prec - 1) e.succ) m)
        rw [if_neg (by omega)]
      have h2 : decSucc m s = mapSet s (Dependency.mk (e.num_prec - 1) e.succ) m := by
        unfold decSucc
        rw [hs]
      rw [h1, h2]
      refine ih hndr ?_
      intro x hx e2 he2
      have hxs : x ≠ s := fun he => hsr (he ▸ hx)
      rw [mapLookup_mapSet_other hxs] at he2
      exact hge x (List.mem_cons_of_mem _ hx) e2 he2

theorem removeChecked_of_some {ts : TopologicalSort T} {k : T} {d : Dependency T}
    (hk : mapLookup k ts.top = some d) :
    removeChecked ts k =
      match d.succ.foldl decSuccChecked (some (mapErase k ts.top)) with
      | none => none
      | some m => some ((⟨m⟩ : TopologicalSort T), some d) := by
  unfold removeChecked
  rw [hk]

/-- C7: in every reachable state, for every element, the decrement loop of
`remove` never underflows and never signals an error: the checked variant
(which skips untracked successors silently and fails on any decrement of a
zero count) succeeds and computes exactly what `remove` computes. -/
theorem remove_never_underflows {ts : TopologicalSort T} (h : Reachable ts) (k : T) :
    removeChecked ts k = some (ts.remove k) := by
  have hW := WFC_of_Reachable h
  cases hk : mapLookup k ts.top with
  | none =>
    unfold removeChecked
    rw [hk, remove_of_none hk]
  | some d =>
    rw [remove_of_some hk]
    have hnd := hW.succNodup k d hk
    have hge : ∀ s ∈ d.succ, ∀ e, mapLookup s (mapErase k ts.top) = some e →
        1 ≤ e.num_prec := by
      intro s hs e hse
      have hsk : s ≠ k := by
        intro he
        rw [he, mapLookup_mapErase_self hW.nodup] at hse
        cases hse
      rw [mapLookup_mapErase_other hsk] at hse
      have hc := hW.count s e hse
      have hpos : 1 ≤ predCount s ts.top := predCount_pos (mapLookup_mem hk) hs
      omega
    rw [removeChecked_of_some hk, foldl_decSuccChecked_eq hnd hge]

theorem remove_never_underflows_witness :
    removeChecked (run [Op.addDep (0 : Nat) 1]) 0 =
      some ((run [Op.addDep (0 : Nat) 1]).remove 0) :=
  remove_never_underflows ⟨[Op.addDep 0 1], rfl⟩ 0

/-- C10: in every reachable state, one `pop_all` call returns pairwise
distinct elements, none of which is still tracked afterwards, and the length
shrinks by exactly the number of returned elements. -/
theorem pop_all_batch_removal {ts : TopologicalSort T} (h : Reachable ts) :
    ((ts.pop_all).2).Nodup ∧
    (∀ k ∈ (ts.pop_all).2, mapLookup k ((ts.pop_all).1).top = none) ∧
    ((ts.pop_all).1).len + ((ts.pop_all).2).length = ts.len := by
  have hW := WFC_of_Reachable h
  obtain ⟨_, hlen, hnone, _, _⟩ :=
    removeKeys_spec hW (readyKeys_nodup hW.nodup) (readyKeys_lookup_zero hW)
  refine ⟨readyKeys_nodup hW.nodup, ?_, ?_⟩
  · intro k hk
    rw [pop_all_ready] at hk
    rw [pop_all_state]
    exact hnone k hk
  · show ((ts.pop_all).1).top.length + ((ts.pop_all).2).length = ts.top.length
    rw [pop_all_state, pop_all_ready]
    exact hlen

theorem pop_all_batch_removal_witness :
    (((run [Op.addDep (0 : Nat) 1]).pop_all).2).Nodup ∧
    (∀ k ∈ ((run [Op.addDep (0 : Nat) 1]).pop_all).2,
      mapLookup k (((run [Op.addDep (0 : Nat) 1]).pop_all).1).top = none) ∧
    (((run [Op.addDep (0 : Nat) 1]).pop_all).1).len +
        (((run [Op.addDep (0 : Nat) 1]).pop_all).2).length =
      (run [Op.addDep (0 : Nat) 1]).len :=
  pop_all_batch_removal ⟨[Op.addDep 0 1], rfl⟩

end TopoSort

namespace TopoSort

variable {T : Type} [DecidableEq T]

set_option linter.unusedSectionVars false

/-- The element `x` is tracked and lists itself as its own successor. -/
def SelfLoop (ts : TopologicalSort T) (x : T) : Prop :=
  ∃ d, mapLookup x ts.top = some d ∧ x ∈ d.succ

theorem selfLoop_num_pos {ts : TopologicalSort T} {x : T}
    (h : WFC ts) (hJ : SelfLoop ts x) :
    ∃ d, mapLookup x ts.top = some d ∧ x ∈ d.succ ∧ 1 ≤ d.num_prec := by
  obtain ⟨d, hx, hs⟩ := hJ
  refine ⟨d, hx, hs, ?_⟩
  rw [h.count x d hx]
  exact predCount_pos (mapLookup_mem hx) hs

theorem selfLoop_applyOp {ts : TopologicalSort T} {x : T} {op : Op T}
    (h : WFC ts) (hJ : SelfLoop ts x) : SelfLoop (applyOp ts op) x := by
  cases op with
  | ins elt =>
    obtain ⟨d, hx, hs⟩ := hJ
    exact ⟨d, insert_lookup_mono hx, hs⟩
  | addDep a b =>
    obtain ⟨d, hx, hs⟩ := hJ
    obtain ⟨e2, h2, hmono⟩ := addDep_lookup_mono (a := a) (b := b) hx
    exact ⟨e2, h2, hmono x hs⟩
  | popOne =>
    obtain ⟨d, hx, hs, hpos⟩ := selfLoop_num_pos h hJ
    show SelfLoop ((ts.pop).1) x
    cases hf : findReady ts.top with
    | none =>
      rw [pop_of_none hf]
      exact ⟨d, hx, hs⟩
    | some k =>
      rw [pop_of_some hf]
      obtain ⟨dk, hkmem, hk0⟩ := findReady_mem hf
      have hkl : mapLookup k ts.top = some dk := mem_mapLookup h.nodup hkmem
      have hxk : x ≠ k := by
        intro he
        rw [he, hkl] at hx
        cases hx
        omega
      refine ⟨Dependency.mk (d.num_prec - dk.succ.count x) d.succ, ?_, hs⟩
      rw [remove_lookup_other hkl hxk, hx]
      rfl
  | popAll =>
    obtain ⟨d, hx, hs, hpos⟩ := selfLoop_num_pos h hJ
    show SelfLoop ((ts.pop_all).1) x
    have hnotin : x ∉ readyKeys ts.top := by
      intro hmem
      obtain ⟨d2, hd2, h02⟩ := (mem_readyKeys_lookup h.nodup).mp hmem
      rw [hx] at hd2
      cases hd2
      omega
    obtain ⟨_, _, _, hsurv, _⟩ :=
      removeKeys_spec h (readyKeys_nodup h.nodup) (readyKeys_lookup_zero h)
    obtain ⟨n, hn⟩ := hsurv x hnotin d hx
    refine ⟨Dependency.mk n d.succ, ?_, hs⟩
    rw [pop_all_state]
    exact hn

theorem selfLoop_foldl {ts : TopologicalSort T} {x : T} (h : WFC ts)
    (hJ : SelfLoop ts x) (ops : List (Op T)) :
    SelfLoop (ops.foldl applyOp ts) x := by
  induction ops generalizing ts with
  | nil => exact hJ
  | cons op rest ih => exact ih (WFC_applyOp h) (selfLoop_applyOp h hJ)

/-- C6: after `add_dependency(x, x)` on any reachable state, in every
subsequently reachable state `x` stays tracked with `num_prec` at least one
and itself in its successor set, the graph is non-empty, and neither `pop`
nor `pop_all` ever returns `x`. -/
theorem self_loop_permanent (ops1 more : List (Op T)) (x : T) :
    (∃ d, mapLookup x (run (ops1 ++ Op.addDep x x :: more)).top = some d ∧
        x ∈ d.succ ∧ 1 ≤ d.num_prec) ∧
    (run (ops1 ++ Op.addDep x x :: more)).top ≠ [] ∧
    ((run (ops1 ++ Op.addDep x x :: more)).pop).2 ≠ some x ∧
    x ∉ ((run (ops1 ++ Op.addDep x x :: more)).pop_all).2 := by
  have hrun : run (ops1 ++ Op.addDep x x :: more) =
      more.foldl applyOp (applyOp (run ops1) (Op.addDep x x)) := by
    unfold run
    rw [List.foldl_append, List.foldl_cons]
  have hW1 : WFC (applyOp (run ops1) (Op.addDep x x)) := WFC_applyOp WFC_run
  have hJ1 : SelfLoop (applyOp (run ops1) (Op.addDep x x)) x :=
    add_dependency_estab (run ops1) x x
  have hWu : WFC (run (ops1 ++ Op.addDep x x :: more)) := by
    rw [hrun]
    exact WFC_foldl hW1
  have hJu : SelfLoop (run (ops1 ++ Op.addDep x x :: more)) x := by
    rw [hrun]
    exact selfLoop_foldl hW1 hJ1 more
  obtain ⟨d, hx, hs, hpos⟩ := selfLoop_num_pos hWu hJu
  refine ⟨⟨d, hx, hs, hpos⟩, ?_, ?_, ?_⟩
  · intro he
    rw [he] at hx
    cases hx
  · cases hf : findReady (run (ops1 ++ Op.addDep x x :: more)).top with
    | none =>
      rw [pop_of_none hf]
      intro hc
      exact Option.noConfusion hc
    | some k =>
      rw [pop_of_some hf]
      intro hc
      have hkx : k = x := Option.some.inj hc
      subst hkx
      obtain ⟨dk, hkmem, hk0⟩ := findReady_mem hf
      have hkl : mapLookup k (run (ops1 ++ Op.addDep k k :: more)).top = some dk :=
        mem_mapLookup hWu.nodup hkmem
      rw [hx] at hkl
      cases hkl
      omega
  · intro hmem
    rw [pop_all_ready] at hmem
    obtain ⟨d2, hd2, h02⟩ := (mem_readyKeys_lookup hWu.nodup).mp hmem
    rw [hx] at hd2
    cases hd2
    omega

end TopoSort

namespace TopoSort

/-- C8: building via `from_iter` from [4, 3, 3, 5, 7, 6, 8] (with the total
`partial_cmp` of the integers) and draining with the iterator (`pop`) yields
exactly 3, 4, 5, 6, 7, 8 and then `None`; the duplicate 3 collapses, so only
six elements are tracked. -/
theorem from_iter_sorted_drain :
    popSeq (fromIter intPcmp [4, 3, 3, 5, 7, 6, 8]) 7 =
      [some 3, some 4, some 5, some 6, some 7, some 8, none] ∧
    (fromIter intPcmp [4, 3, 3, 5, 7, 6, 8]).len = 6 := by
  constructor
  · rfl
  · rfl

end TopoSort

namespace TopoSort

variable {T : Type} [DecidableEq T]

set_option linter.unusedSectionVars false

/-- Directed paths of length at least one over an edge relation. -/
inductive Path (E : T → T → Prop) : T → T → Prop where
  | single {x y : T} : E x y → Path E x y
  | tail {x y z : T} : Path E x y → E y z → Path E x z

/-- A relation is acyclic when no element has a nonempty path back to
itself. -/
def Acyclic (E : T → T → Prop) : Prop := ∀ x, ¬ Path E x x

theorem Path.mono {E F : T → T → Prop} {x y : T}
    (hEF : ∀ a b, E a b → F a b) (h : Path E x y) : Path F x y := by
  induction h with
  | single he => exact Path.single (hEF _ _ he)
  | tail _ he ih => exact Path.tail ih (hEF _ _ he)

theorem path_rank {E : T → T → Prop} {f : T → Nat} {x y : T}
    (hf : ∀ a b, E a b → f a < f b) (h : Path E x y) : f x < f y := by
  induction h with
  | single he => exact hf _ _ he
  | tail _ he ih => exact lt_trans ih (hf _ _ he)

theorem acyclic_of_rank {E : T → T → Prop} (f : T → Nat)
    (hf : ∀ a b, E a b → f a < f b) : Acyclic E :=
  fun x hp => lt_irrefl (f x) (path_rank hf hp)

/-- The precedence pairs registered by the `add_dependency` calls of an
operation sequence. -/
def opEdges : List (Op T) → List (T × T)
  | [] => []
  | Op.addDep p s :: rest => (p, s) :: opEdges rest
  | Op.ins _ :: rest => opEdges rest
  | Op.popOne :: rest => opEdges rest
  | Op.popAll :: rest => opEdges rest

/-- Membership edge relation of a list of pairs. -/
def EdgeIn (es : List (T × T)) (x y : T) : Prop := (x, y) ∈ es

/-- The dependency edges recorded in a state: `y` is a recorded successor of
the tracked element `x`. -/
def StateEdge (ts : TopologicalSort T) (x y : T) : Prop :=
  ∃ e, mapLookup x ts.top = some e ∧ y ∈ e.succ

/-- Whether an operation only builds the graph (insert / add_dependency). -/
def Op.isBuild : Op T → Bool
  | Op.ins _ => true
  | Op.addDep _ _ => true
  | Op.popOne => false
  | Op.popAll => false

/-- Iterated `pop_all` calls. -/
def popAllIter (ts : TopologicalSort T) : Nat → TopologicalSort T
  | 0 => ts
  | n + 1 => popAllIter ((ts.pop_all).1) n

/-- The successive batches returned by repeated `pop_all` calls, stopping at
the first empty batch, with fuel. -/
def popAllRounds (ts : TopologicalSort T) : Nat → List (List T)
  | 0 => []
  | n + 1 =>
    if (ts.pop_all).2 = [] then []
    else (ts.pop_all).2 :: popAllRounds ((ts.pop_all).1) n

/-- The rounds of repeated `pop_all` calls: `len` many calls always
suffice to drain an acyclic graph. -/
def roundsOf (ts : TopologicalSort T) : List (List T) :=
  popAllRounds ts ts.top.length

theorem exists_of_predCount_pos {x : T} {m : List (T × Dependency T)}
    (h : 1 ≤ predCount x m) : ∃ p ∈ m, x ∈ p.2.succ := by
  induction m with
  | nil => simp [predCount] at h
  | cons p rest ih =>
    rw [predCount_cons] at h
    by_cases hm : x ∈ p.2.succ
    · exact ⟨p, List.mem_cons_self _ _, hm⟩
    · rw [if_neg hm] at h
      obtain ⟨q, hq, hqs⟩ := ih (by omega)
      exact ⟨q, List.mem_cons_of_mem _ hq, hqs⟩

theorem stateEdge_insert {ts : TopologicalSort T} {elt x y : T}
    (h : StateEdge ((ts.insert elt).1) x y) : StateEdge ts x y := by
  obtain ⟨e, hx, hy⟩ := h
  cases hi : mapLookup elt ts.top with
  | some d =>
    rw [insert_of_some hi] at hx
    exact ⟨e, hx, hy⟩
  | none =>
    rw [insert_of_none hi] at hx
    cases hxm : mapLookup x ts.top with
    | some e0 =>
      rw [mapLookup_append_left hxm] at hx
      cases hx
      exact ⟨e, hxm, hy⟩
    | none =>
      rw [mapLookup_append_right hxm, mapLookup_single] at hx
      by_cases he : elt = x
      · rw [if_pos he] at hx
        cases hx
        cases hy
      · rw [if_neg he] at hx
        cases hx

theorem stateEdge_addDepStep2 {b x y : T} {m1 : List (T × Dependency T)}
    (h : ∃ e, mapLookup x (addDepStep2 b m1) = some e ∧ y ∈ e.succ) :
    ∃ e, mapLookup x m1 = some e ∧ y ∈ e.succ := by
  obtain ⟨e, hx, hy⟩ := h
  cases hs : mapLookup b m1 with
  | none =>
    rw [addDepStep2_of_none hs] at hx
    cases hxm : mapLookup x m1 with
    | some e0 =>
      rw [mapLookup_append_left hxm] at hx
      cases hx
      exact ⟨e, rfl, hy⟩
    | none =>
      rw [mapLookup_append_right hxm, mapLookup_single] at hx
      by_cases he : b = x
      · rw [if_pos he] at hx
        cases hx
        cases hy
      · rw [if_neg he] at hx
        cases hx
  | some es =>
    rw [addDepStep2_of_some hs] at hx
    by_cases he : x = b
    · subst he
      rw [mapLookup_mapSet_self hs] at hx
      cases hx
      exact ⟨es, hs, hy⟩
    · rw [mapLookup_mapSet_other he] at hx
      exact ⟨e, hx, hy⟩

theorem stateEdge_addDep {ts : TopologicalSort T} {a b x y : T}
    (h : StateEdge (ts.add_dependency a b) x y) :
    StateEdge ts x y ∨ (x = a ∧ y = b) := by
  cases hp : mapLookup a ts.top with
  | none =>
    rw [addDep_of_vacant hp] at h
    obtain ⟨e, hx, hy⟩ := stateEdge_addDepStep2 h
    cases hxm : mapLookup x ts.top with
    | some e0 =>
      rw [mapLookup_append_left hxm] at hx
      cases hx
      exact Or.inl ⟨e, hxm, hy⟩
    | none =>
      rw [mapLookup_append_right hxm, mapLookup_single] at hx
      by_cases he : a = x
      · rw [if_pos he] at hx
        cases hx
        rw [List.mem_singleton] at hy
        exact Or.inr ⟨he.symm, hy⟩
      · rw [if_neg he] at hx
        cases hx
  | some d =>
    by_cases hs : b ∈ d.succ
    · rw [addDep_of_dup hp hs] at h
      exact Or.inl h
    · rw [addDep_of_new hp hs] at h
      obtain ⟨e, hx, hy⟩ := stateEdge_addDepStep2 h
      by_cases he : x = a
      · subst he
        rw [mapLookup_mapSet_self hp] at hx
        cases hx
        have : y ∈ d.succ ++ [b] := hy
        rw [List.mem_append, List.mem_singleton] at this
        rcases this with h1 | h2
        · exact Or.inl ⟨d, hp, h1⟩
        · exact Or.inr ⟨rfl, h2⟩
      · rw [mapLookup_mapSet_other he] at hx
        exact Or.inl ⟨e, hx, hy⟩

theorem stateEdge_pop_all {ts : TopologicalSort T} {x y : T} (h : WFC ts)
    (he : StateEdge ((ts.pop_all).1) x y) : StateEdge ts x y := by
  obtain ⟨e2, hx, hy⟩ := he
  rw [pop_all_state] at hx
  obtain ⟨_, _, _, _, hshrink⟩ :=
    removeKeys_spec h (readyKeys_nodup h.nodup) (readyKeys_lookup_zero h)
  obtain ⟨e, he0, hsucc⟩ := hshrink x e2 hx
  exact ⟨e, he0, hsucc ▸ hy⟩

theorem stateEdge_pop {ts : TopologicalSort T} {x y : T} (h : WFC ts)
    (he : StateEdge ((ts.pop).1) x y) : StateEdge ts x y := by
  obtain ⟨e2, hx, hy⟩ := he
  cases hf : findReady ts.top with
  | none =>
    rw [pop_of_none hf] at hx
    exact ⟨e2, hx, hy⟩
  | some k =>
    rw [pop_of_some hf] at hx
    obtain ⟨dk, hkmem, hk0⟩ := findReady_mem hf
    have hkl : mapLookup k ts.top = some dk := mem_mapLookup h.nodup hkmem
    by_cases hxk : x = k
    · rw [hxk, remove_lookup_self h.nodup] at hx
      cases hx
    · rw [remove_lookup_other hkl hxk] at hx
      cases hxm : mapLookup x ts.top with
      | none =>
        rw [hxm] at hx
        cases hx
      | some e0 =>
        rw [hxm] at hx
        cases hx
        exact ⟨e0, hxm, hy⟩

theorem stateEdge_applyOp {ts : TopologicalSort T} {op : Op T} {x y : T}
    (h : WFC ts) (he : StateEdge (applyOp ts op) x y) :
    StateEdge ts x y ∨ (∃ p s, op = Op.addDep p s ∧ x = p ∧ y = s) := by
  cases op with
  | ins elt => exact Or.inl (stateEdge_insert he)
  | addDep a b =>
    rcases stateEdge_addDep he with h1 | ⟨hx, hy⟩
    · exact Or.inl h1
    · exact Or.inr ⟨a, b, rfl, hx, hy⟩
  | popOne => exact Or.inl (stateEdge_pop h he)
  | popAll => exact Or.inl (stateEdge_pop_all h he)

theorem stateEdge_foldl_sub {ts : TopologicalSort T} {ops : List (Op T)} {x y : T}
    (h : WFC ts) (he : StateEdge (ops.foldl applyOp ts) x y) :
    StateEdge ts x y ∨ (x, y) ∈ opEdges ops := by
  induction ops generalizing ts with
  | nil => exact Or.inl he
  | cons op rest ih =>
    rw [List.foldl_cons] at he
    rcases ih (WFC_applyOp h) he with h1 | h2
    · rcases stateEdge_applyOp h h1 with h3 | ⟨p, s, hop, hx, hy⟩
      · exact Or.inl h3
      · subst hop
        subst hx
        subst hy
        exact Or.inr (List.mem_cons_self _ _)
    · refine Or.inr ?_
      cases op with
      | ins elt => exact h2
      | addDep p s => exact List.mem_cons_of_mem _ h2
      | popOne => exact h2
      | popAll => exact h2

theorem stateEdge_run_sub {ops : List (Op T)} {x y : T}
    (he : StateEdge (run ops : TopologicalSort T) x y) : (x, y) ∈ opEdges ops := by
  rcases stateEdge_foldl_sub WFC_new he with h1 | h2
  · obtain ⟨e, hx, _⟩ := h1
    cases hx
  · exact h2

theorem estab_applyOp {ts : TopologicalSort T} {op : Op T} {p s : T}
    (hb : op.isBuild = true) (he : StateEdge ts p s) :
    StateEdge (applyOp ts op) p s := by
  obtain ⟨e, hp, hs⟩ := he
  cases op with
  | ins elt => exact ⟨e, insert_lookup_mono hp, hs⟩
  | addDep a b =>
    obtain ⟨e2, h2, hmono⟩ := addDep_lookup_mono (a := a) (b := b) hp
    exact ⟨e2, h2, hmono s hs⟩
  | popOne => cases hb
  | popAll => cases hb

theorem estab_foldl {ts : TopologicalSort T} {ops : List (Op T)} {p s : T}
    (hbuild : ∀ op ∈ ops, op.isBuild = true)
    (h : (p, s) ∈ opEdges ops ∨ StateEdge ts p s) :
    StateEdge (ops.foldl applyOp ts) p s := by
  induction ops generalizing ts with
  | nil =>
    rcases h with h1 | h2
    · cases h1
    · exact h2
  | cons op rest ih =>
    rw [List.foldl_cons]
    have hbrest : ∀ o ∈ rest, o.isBuild = true :=
      fun o ho => hbuild o (List.mem_cons_of_mem _ ho)
    have hbop : op.isBuild = true := hbuild op (List.mem_cons_self _ _)
    rcases h with h1 | h2
    · cases op with
      | ins elt => exact ih hbrest (Or.inl h1)
      | addDep a b =>
        rcases List.mem_cons.mp h1 with hh | ht
        · cases hh
          exact ih hbrest (Or.inr (add_dependency_estab ts p s))
        · exact ih hbrest (Or.inl ht)
      | popOne => cases hbop
      | popAll => cases hbop
    · exact ih hbrest (Or.inr (estab_applyOp hbop h2))

theorem opEdges_estab {ops : List (Op T)} {p s : T}
    (hbuild : ∀ op ∈ ops, op.isBuild = true) (hmem : (p, s) ∈ opEdges ops) :
    StateEdge (run ops : TopologicalSort T) p s :=
  estab_foldl hbuild (Or.inl hmem)

end TopoSort

namespace TopoSort

set_option linter.unusedSectionVars false

theorem Path.map {A B : Type} {E : A → A → Prop} {F : B → B → Prop} (f : A → B)
    (hf : ∀ a b, E a b → F (f a) (f b)) {x y : A} (h : Path E x y) :
    Path F (f x) (f y) := by
  induction h with
  | single he => exact Path.single (hf _ _ he)
  | tail _ he ih => exact Path.tail ih (hf _ _ he)

theorem cycle_of_total_pred {A : Type} [Finite A] (x0 : A) {E : A → A → Prop}
    (h : ∀ a, ∃ b, E b a) : ∃ x, Path E x x := by
  obtain ⟨g, hg⟩ := Classical.axiomOfChoice h
  have hstep : ∀ n : ℕ, E (g^[n + 1] x0) (g^[n] x0) := by
    intro n
    rw [Function.iterate_succ_apply']
    exact hg _
  have hpath : ∀ k n : ℕ, Path E (g^[n + k + 1] x0) (g^[n] x0) := by
    intro k
    induction k with
    | zero => exact fun n => Path.single (hstep n)
    | succ k ih =>
      intro n
      have harith : n + (k + 1) + 1 = n + 1 + k + 1 := by omega
      rw [harith]
      exact Path.tail (ih (n + 1)) (hstep n)
  obtain ⟨i, j, hij, hfij⟩ :=
    Finite.exists_ne_map_eq_of_infinite (fun n : ℕ => g^[n] x0)
  have hcyc : ∀ i j : ℕ, i < j → g^[i] x0 = g^[j] x0 → ∃ x, Path E x x := by
    intro i j hlt heq
    have harith : i + (j - i - 1) + 1 = j := by omega
    have hp : Path E (g^[j] x0) (g^[i] x0) := by
      have h2 := hpath (j - i - 1) i
      rw [harith] at h2
      exact h2
    rw [heq] at hp
    exact ⟨g^[j] x0, hp⟩
  rcases lt_trichotomy i j with hlt | heq | hgt
  · exact hcyc i j hlt hfij
  · exact absurd heq hij
  · exact hcyc j i hgt hfij.symm

variable {T : Type} [DecidableEq T]

theorem exists_ready {ts : TopologicalSort T} (h : WFC ts) (hne : ts.top ≠ [])
    (hacyc : Acyclic (StateEdge ts)) : readyKeys ts.top ≠ [] := by
  intro hready
  have hall : ∀ j d, mapLookup j ts.top = some d → 1 ≤ d.num_prec := by
    intro j d hj
    by_contra hlt
    have h0 : d.num_prec = 0 := by omega
    have hmem : j ∈ readyKeys ts.top := (mem_readyKeys_lookup h.nodup).mpr ⟨d, hj, h0⟩
    rw [hready] at hmem
    cases hmem
  have hpred : ∀ a : {a : T // a ∈ keysOf ts.top},
      ∃ b : {a : T // a ∈ keysOf ts.top}, StateEdge ts b.val a.val := by
    rintro ⟨a, ha⟩
    obtain ⟨d, hd⟩ := mapLookup_isSome.mp ha
    have hnum := hall a d hd
    have hpc : 1 ≤ predCount a ts.top := by
      have := h.count a d hd
      omega
    obtain ⟨p, hp, hps⟩ := exists_of_predCount_pos hpc
    have hpl : mapLookup p.1 ts.top = some p.2 := mem_mapLookup h.nodup hp
    have hpk : p.1 ∈ keysOf ts.top := mapLookup_isSome.mpr ⟨p.2, hpl⟩
    exact ⟨⟨p.1, hpk⟩, ⟨p.2, hpl, hps⟩⟩
  have hfin : Finite {a : T // a ∈ keysOf ts.top} :=
    ((keysOf ts.top).finite_toSet).to_subtype
  have hx0 : ∃ a, a ∈ keysOf ts.top := by
    apply List.exists_mem_of_ne_nil
    intro hk
    exact hne (List.map_eq_nil_iff.mp hk)
  obtain ⟨a0, ha0⟩ := hx0
  obtain ⟨x, hx⟩ := cycle_of_total_pred (⟨a0, ha0⟩ : {a : T // a ∈ keysOf ts.top}) hpred
  have hcyc : Path (StateEdge ts) x.val x.val :=
    Path.map Subtype.val (fun a b hab => hab) hx
  exact hacyc x.val hcyc

end TopoSort

namespace TopoSort

variable {T : Type} [DecidableEq T]

set_option linter.unusedSectionVars false

theorem pop_all_of_empty {ts : TopologicalSort T} (h : ts.top = []) :
    (ts.pop_all).1 = ts := by
  have hr : readyKeys ts.top = [] := by
    rw [h]
    rfl
  rw [pop_all_state, hr]
  rfl

theorem acyclic_pop_all {ts : TopologicalSort T} (h : WFC ts)
    (hacyc : Acyclic (StateEdge ts)) : Acyclic (StateEdge ((ts.pop_all).1)) :=
  fun x hp => hacyc x (hp.mono (fun _ _ hab => stateEdge_pop_all h hab))

theorem pop_all_length {ts : TopologicalSort T} (h : WFC ts) :
    ((ts.pop_all).1).top.length + ((ts.pop_all).2).length = ts.top.length := by
  obtain ⟨_, hlen, _, _, _⟩ :=
    removeKeys_spec h (readyKeys_nodup h.nodup) (readyKeys_lookup_zero h)
  rw [pop_all_state, pop_all_ready]
  exact hlen

theorem pop_all_survivor {ts : TopologicalSort T} {x : T} {e : Dependency T}
    (h : WFC ts) (hx : mapLookup x ts.top = some e) (hnot : x ∉ (ts.pop_all).2) :
    ∃ n, mapLookup x ((ts.pop_all).1).top = some (Dependency.mk n e.succ) := by
  rw [pop_all_ready] at hnot
  obtain ⟨_, _, _, hsurv, _⟩ :=
    removeKeys_spec h (readyKeys_nodup h.nodup) (readyKeys_lookup_zero h)
  obtain ⟨n, hn⟩ := hsurv x hnot e hx
  refine ⟨n, ?_⟩
  rw [pop_all_state]
  exact hn

theorem popAllIter_empty {ts : TopologicalSort T} {n : Nat} (h : WFC ts)
    (hacyc : Acyclic (StateEdge ts)) (hfuel : ts.top.length ≤ n) :
    (popAllIter ts n).top = [] := by
  induction n generalizing ts with
  | zero =>
    have h0 : ts.top.length = 0 := by omega
    exact List.length_eq_zero.mp h0
  | succ n ih =>
    by_cases hne : ts.top = []
    · show (popAllIter ((ts.pop_all).1) n).top = []
      rw [pop_all_of_empty hne]
      refine ih h hacyc ?_
      rw [hne]
      simp
    · have hready := exists_ready h hne hacyc
      have hrne : (ts.pop_all).2 ≠ [] := by
        rw [pop_all_ready]
        exact hready
      have hkpos : 1 ≤ ((ts.pop_all).2).length := List.length_pos.mpr hrne
      have hlen := pop_all_length h
      show (popAllIter ((ts.pop_all).1) n).top = []
      exact ih (WFC_pop_all h) (acyclic_pop_all h hacyc) (by omega)

theorem rounds_total {ts : TopologicalSort T} {f : Nat} {x : T} (h : WFC ts)
    (hacyc : Acyclic (StateEdge ts)) (hx : x ∈ keysOf ts.top)
    (hfuel : ts.top.length ≤ f) :
    ∃ i, x ∈ (popAllRounds ts f).getD i [] := by
  induction f generalizing ts with
  | zero =>
    have h0 : ts.top.length = 0 := by omega
    have hk : keysOf ts.top = [] := by
      rw [List.length_eq_zero.mp h0]
      rfl
    rw [hk] at hx
    cases hx
  | succ f ih =>
    have hne : ts.top ≠ [] := by
      intro he
      have hk : keysOf ts.top = [] := by
        rw [he]
        rfl
      rw [hk] at hx
      cases hx
    have hready := exists_ready h hne hacyc
    have hrne : (ts.pop_all).2 ≠ [] := by
      rw [pop_all_ready]
      exact hready
    have hrounds : popAllRounds ts (f + 1) =
        (ts.pop_all).2 :: popAllRounds ((ts.pop_all).1) f := by
      show (if (ts.pop_all).2 = [] then []
        else (ts.pop_all).2 :: popAllRounds ((ts.pop_all).1) f) = _
      rw [if_neg hrne]
    by_cases hxk : x ∈ (ts.pop_all).2
    · refine ⟨0, ?_⟩
      rw [hrounds]
      simpa using hxk
    · obtain ⟨e, he⟩ := mapLookup_isSome.mp hx
      obtain ⟨n, hn⟩ := pop_all_survivor h he hxk
      have hx2 : x ∈ keysOf ((ts.pop_all).1).top :=
        mapLookup_isSome.mpr ⟨Dependency.mk n e.succ, hn⟩
      have hkpos : 1 ≤ ((ts.pop_all).2).length := List.length_pos.mpr hrne
      have hlen := pop_all_length h
      obtain ⟨i, hi⟩ := ih (WFC_pop_all h) (acyclic_pop_all h hacyc) hx2 (by omega)
      refine ⟨i + 1, ?_⟩
      rw [hrounds]
      simpa using hi

theorem rounds_ordered {ts : TopologicalSort T} {f : Nat} {p s : T} (h : WFC ts)
    (hacyc : Acyclic (StateEdge ts)) (hedge : StateEdge ts p s)
    (hfuel : ts.top.length ≤ f) :
    ∃ i j, i < j ∧ p ∈ (popAllRounds ts f).getD i [] ∧
      s ∈ (popAllRounds ts f).getD j [] := by
  induction f generalizing ts with
  | zero =>
    obtain ⟨dp, hp, _⟩ := hedge
    have hpk : p ∈ keysOf ts.top := mapLookup_isSome.mpr ⟨dp, hp⟩
    have h0 : ts.top.length = 0 := by omega
    have hk : keysOf ts.top = [] := by
      rw [List.length_eq_zero.mp h0]
      rfl
    rw [hk] at hpk
    cases hpk
  | succ f ih =>
    obtain ⟨dp, hp, hsmem⟩ := hedge
    have hpk : p ∈ keysOf ts.top := mapLookup_isSome.mpr ⟨dp, hp⟩
    have hne : ts.top ≠ [] := by
      intro he
      have hk : keysOf ts.top = [] := by
        rw [he]
        rfl
      rw [hk] at hpk
      cases hpk
    have hready := exists_ready h hne hacyc
    have hrne : (ts.pop_all).2 ≠ [] := by
      rw [pop_all_ready]
      exact hready
    have hrounds : popAllRounds ts (f + 1) =
        (ts.pop_all).2 :: popAllRounds ((ts.pop_all).1) f := by
      show (if (ts.pop_all).2 = [] then []
        else (ts.pop_all).2 :: popAllRounds ((ts.pop_all).1) f) = _
      rw [if_neg hrne]
    have hsk : s ∈ keysOf ts.top := h.closed p dp hp s hsmem
    obtain ⟨ds, hds⟩ := mapLookup_isSome.mp hsk
    have hspos : 1 ≤ ds.num_prec := by
      rw [h.count s ds hds]
      exact predCount_pos (mapLookup_mem hp) hsmem
    have hsnot : s ∉ (ts.pop_all).2 := by
      intro hmem
      rw [pop_all_ready] at hmem
      obtain ⟨d2, hd2, h02⟩ := (mem_readyKeys_lookup h.nodup).mp hmem
      rw [hds] at hd2
      cases hd2
      omega
    obtain ⟨ns, hnssurv⟩ := pop_all_survivor h hds hsnot
    have hs2 : s ∈ keysOf ((ts.pop_all).1).top :=
      mapLookup_isSome.mpr ⟨Dependency.mk ns ds.succ, hnssurv⟩
    have hkpos : 1 ≤ ((ts.pop_all).2).length := List.length_pos.mpr hrne
    have hlen := pop_all_length h
    by_cases hpk2 : p ∈ (ts.pop_all).2
    · obtain ⟨j2, hj2⟩ :=
        rounds_total (f := f) (WFC_pop_all h) (acyclic_pop_all h hacyc) hs2 (by omega)
      refine ⟨0, j2 + 1, by omega, ?_, ?_⟩
      · rw [hrounds]
        simpa using hpk2
      · rw [hrounds]
        simpa using hj2
    · obtain ⟨np, hnpsurv⟩ := pop_all_survivor h hp hpk2
      have hedge2 : StateEdge ((ts.pop_all).1) p s :=
        ⟨Dependency.mk np dp.succ, hnpsurv, hsmem⟩
      obtain ⟨i2, j2, hij, hi2, hj2⟩ :=
        ih (WFC_pop_all h) (acyclic_pop_all h hacyc) hedge2 (by omega)
      refine ⟨i2 + 1, j2 + 1, by omega, ?_, ?_⟩
      · rw [hrounds]
        simpa using hi2
      · rw [hrounds]
        simpa using hj2

/-- C1: for a graph built by insert / add_dependency calls whose registered
precedence pairs are acyclic, repeated `pop_all` drains the graph to empty
in finitely many rounds, and for every registered pair (p, s) the element p
is returned in a strictly earlier round than s. -/
theorem acyclic_drain_and_order (ops : List (Op T))
    (hbuild : ∀ op ∈ ops, op.isBuild = true)
    (hacyc : Acyclic (EdgeIn (opEdges ops))) :
    (∃ n, (popAllIter (run ops) n).top = []) ∧
    (∀ p s, (p, s) ∈ opEdges ops →
      ∃ i j, i < j ∧ p ∈ (roundsOf (run ops)).getD i [] ∧
        s ∈ (roundsOf (run ops)).getD j []) := by
  have hW : WFC (run ops : TopologicalSort T) := WFC_run
  have hacycS : Acyclic (StateEdge (run ops : TopologicalSort T)) :=
    fun x hp => hacyc x (hp.mono (fun _ _ hab => stateEdge_run_sub hab))
  constructor
  · exact ⟨(run ops : TopologicalSort T).top.length,
      popAllIter_empty hW hacycS (le_refl _)⟩
  · intro p s hmem
    have hedge : StateEdge (run ops : TopologicalSort T) p s :=
      opEdges_estab hbuild hmem
    exact rounds_ordered hW hacycS hedge (le_refl _)

theorem acyclic_drain_and_order_witness :
    ((∃ n, (popAllIter (run [Op.addDep (0 : Nat) 1, Op.addDep 1 2]) n).top = []) ∧
      (∀ p s, (p, s) ∈ opEdges [Op.addDep (0 : Nat) 1, Op.addDep 1 2] →
        ∃ i j, i < j ∧
          p ∈ (roundsOf (run [Op.addDep (0 : Nat) 1, Op.addDep 1 2])).getD i [] ∧
          s ∈ (roundsOf (run [Op.addDep (0 : Nat) 1, Op.addDep 1 2])).getD j [])) :=
  acyclic_drain_and_order [Op.addDep 0 1, Op.addDep 1 2]
    (by decide)
    (acyclic_of_rank (fun n => n) (by
      intro a b hab
      have hm : (a, b) ∈ [((0 : Nat), (1 : Nat)), (1, 2)] := hab
      rcases List.mem_cons.mp hm with h1 | h2
      · cases h1
        decide
      · rw [List.mem_singleton] at h2
        cases h2
        decide))

end TopoSort
